import Mathlib

/-!
Verification of the SCPCE persistent-context-engine memory pipeline.

Shallow embedding of the Python sources in `src/pce/` (`compression.py`,
`schema.py`, `storage.py`, `retrieval.py`, `api.py`).  Python strings are
modelled as `List Char` (`Str`), Python ints used as sizes/budgets as `Nat`,
float scores as exact fractions (`Frac`, an integer numerator/denominator
pair compared by cross multiplication; every score the code computes is a
ratio of machine integers, so this is exact), and Python exceptions as
`Option`/failure values.
Modelling notes:
  * `str.lower()` is modelled per-char by `Char.toLower` (ASCII case folding;
    the sources only ever compare against ASCII markers).
  * Python whitespace is modelled by the ASCII whitespace set used by
    `str.strip()` / `str.split()`.
  * `str.splitlines()` is modelled for the `\n`, `\r`, `\r\n` terminators.
-/

set_option maxHeartbeats 1000000
set_option maxRecDepth 8000

abbrev Str := List Char

/-- ASCII whitespace, as recognised by Python `str.strip()` / `str.split()`. -/
def isPySpace (c : Char) : Bool :=
  c = ' ' || c = '\t' || c = '\n' || c = '\r' || c = '\x0b' || c = '\x0c'

/-- Sentence delimiters of `compress_text` (`.`, `!`, `?`). -/
def isDelim (c : Char) : Bool :=
  c = '.' || c = '!' || c = '?'

/-- `str.lower()` (ASCII). -/
def pyToLower (s : Str) : Str := s.map Char.toLower

/-- Accumulator loop for `wordsBy`: collect the current run (reversed),
flush it at each character not satisfying `keep`. -/
def wordsByAux (keep : Char → Bool) : Str → Str → List Str
  | [], acc => if acc.isEmpty then [] else [acc.reverse]
  | c :: cs, acc =>
    if keep c then wordsByAux keep cs (c :: acc)
    else if acc.isEmpty then wordsByAux keep cs []
    else acc.reverse :: wordsByAux keep cs []

/-- Maximal runs of characters satisfying `keep`, in order; models
`re.split` on the complement class with empty pieces dropped, and also
`str.split()` (there `keep` accepts the non-whitespace characters). -/
def wordsBy (keep : Char → Bool) (l : Str) : List Str := wordsByAux keep l []

/-- `str.split()` — split on whitespace runs. -/
def pyWords : Str → List Str := wordsBy (fun c => !isPySpace c)

/-- `" ".join(blocks)`. -/
def joinSp (blocks : List Str) : Str := List.intercalate [' '] blocks

/-- Drop leading whitespace (`str.lstrip()`). -/
def lstripPy (s : Str) : Str := s.dropWhile isPySpace

/-- Drop trailing whitespace (`str.rstrip()`). -/
def rstripPy (s : Str) : Str := (s.reverse.dropWhile isPySpace).reverse

/-- `str.strip()`. -/
def pyStrip (s : Str) : Str := rstripPy (lstripPy s)

/-- `str.strip(chars)` — strip any of the given characters from both ends. -/
def pyStripChars (set : List Char) (s : Str) : Str :=
  ((s.dropWhile (· ∈ set)).reverse.dropWhile (· ∈ set)).reverse

/-- Substring containment, Python `needle in hay`. -/
def pyContains (hay needle : Str) : Bool :=
  (List.range (hay.length + 1)).any fun i => (hay.drop i).take needle.length = needle

/-- The part of `line` after the first occurrence of `sep`
(`line.split(sep, 1)[1]`); `none` when `sep` does not occur
(in Python that indexing raises `IndexError`). -/
def pySplitAfterFirst (sep line : Str) : Option Str :=
  ((List.range (line.length + 1)).find? fun i =>
      decide ((line.drop i).take sep.length = sep)).map
    fun i => line.drop (i + sep.length)

/-- Loop of `pySplitlines`; `\r\n` counts as a single terminator. -/
def pySplitlinesAux : Str → Str → List Str
  | cur, [] => if cur.isEmpty then [] else [cur]
  | cur, '\r' :: '\n' :: rest => cur :: pySplitlinesAux [] rest
  | cur, c :: rest =>
    if c = '\n' || c = '\r' then cur :: pySplitlinesAux [] rest
    else pySplitlinesAux (cur ++ [c]) rest

/-- `str.splitlines()` for the `\n` / `\r` / `\r\n` terminators. -/
def pySplitlines (l : Str) : List Str := pySplitlinesAux [] l

/-- First-occurrence deduplication with an explicit seen set, as in the
Python loops using `seen = set()`. -/
def dedupSeen {α : Type} [DecidableEq α] : List α → List α → List α
  | [], _ => []
  | x :: xs, seen =>
    if x ∈ seen then dedupSeen xs seen else x :: dedupSeen xs (x :: seen)

/-- Deduplicate keeping first occurrences. -/
def dedupFirst {α : Type} [DecidableEq α] (l : List α) : List α := dedupSeen l []

/-- Index of the last `' '` in the list, if any; `rfind(" ", 0, n)` on a
string `s` is `lastSpaceIdx (s.take n)`. -/
def lastSpaceIdx : Str → Option Nat
  | [] => none
  | c :: cs =>
    match lastSpaceIdx cs with
    | some j => some (j + 1)
    | none => if c = ' ' then some 0 else none

/-- The sentence-splitting loop of `compress_text`: split on `.`, `!`, `?`
keeping the delimiter with the preceding sentence; each flushed sentence is
stripped and dropped if empty; a trailing remainder is stripped and appended
(Python appends `current.strip()` whenever `current` is non-empty). -/
def splitSentencesAux : Str → Str → List Str
  | [], cur => if cur.isEmpty then [] else [pyStrip cur]
  | c :: cs, cur =>
    if isDelim c then
      let s := pyStrip (cur ++ [c])
      if s.isEmpty then splitSentencesAux cs [] else s :: splitSentencesAux cs []
    else
      splitSentencesAux cs (cur ++ [c])

def splitSentences (s : Str) : List Str := splitSentencesAux s []

/-- The truncation step of `compress_text`: return as-is when within budget,
else cut at the last space strictly before `maxChars` (then `rstrip`), or
hard-cut at `maxChars` when no such space exists. -/
def truncateAtBoundary (res : Str) (maxChars : Nat) : Str :=
  if res.length ≤ maxChars then res
  else
    match lastSpaceIdx (res.take maxChars) with
    | none => res.take maxChars
    | some cut => rstripPy (res.take cut)

/-- `compress_text` from `pce/compression.py`. -/
def compress_text (text : Str) (maxChars : Nat) : Str :=
  let cleaned := joinSp (pyWords (pyStrip text))
  if cleaned.isEmpty then []
  else
    truncateAtBoundary (joinSp (dedupFirst (splitSentences cleaned))) maxChars

/-- Lexicographic strict order on `Str`, Python `<` on strings
(code-point order). -/
def lexLt : Str → Str → Bool
  | [], [] => false
  | [], _ :: _ => true
  | _ :: _, [] => false
  | a :: as, b :: bs => if a < b then true else if b < a then false else lexLt as bs

/-- Lexicographic reflexive order on `Str`, Python `<=` on strings. -/
def lexLe (a b : Str) : Bool := !lexLt b a

/-- The stopword set of `pce/compression.py` (`_STOPWORDS`). -/
def STOPWORDS : List Str :=
  ["the", "and", "a", "an", "of", "to", "in", "for", "on", "at",
   "is", "are", "was", "were", "be", "been", "with", "as", "by",
   "or", "if", "then", "so", "we", "i", "you", "it", "that", "this",
   "but", "from", "our", "their", "they", "them", "my", "your"].map String.data

/-- A character of a token: `[a-z0-9_]` (the class of `_tokenize`'s regex). -/
def isTokChar (c : Char) : Bool :=
  ('a' ≤ c && c ≤ 'z') || ('0' ≤ c && c ≤ '9') || c = '_'

/-- `_tokenize` from `pce/compression.py`: lowercase, then maximal runs of
`[a-z0-9_]` with empty tokens dropped. -/
def tokenize (text : Str) : List Str := wordsBy isTokChar (pyToLower text)

/-- The non-stopword token stream of a list of texts, in order; the counter
of `extract_keywords` counts exactly these occurrences, and its insertion
(= first-seen) order is the first-occurrence order of this stream. -/
def nonStopTokens (texts : List Str) : List Str :=
  (texts.flatMap tokenize).filter (fun t => !(t ∈ STOPWORDS : Bool))

/-- Sort key order of `extract_keywords`: ascending in `(-count, token)`. -/
def kwKeyLe (a b : Str × Nat) : Prop :=
  b.2 < a.2 ∨ (a.2 = b.2 ∧ lexLe a.1 b.1)

instance : DecidableRel kwKeyLe := fun a b => by
  unfold kwKeyLe; infer_instance

/-- `extract_keywords` from `pce/compression.py`.  `Counter` is modelled by
occurrence counts over the token stream; `counter.items()` enumerates
distinct tokens in first-seen order; Python's stable `sorted` is modelled by
`List.insertionSort` (also stable) on the same key order. -/
def extract_keywords (texts : List Str) (maxKeywords : Nat) : List Str :=
  let toks := nonStopTokens texts
  if toks.isEmpty then []
  else
    let items := (dedupFirst toks).map fun t => (t, toks.count t)
    ((items.insertionSort kwKeyLe).take maxKeywords).map Prod.fst

/-- `SemanticMemory` from `pce/schema.py`. -/
structure SemanticMemory where
  concepts : List Str := []
  notes : Str := []
deriving DecidableEq, Repr

/-- `ProceduralMemory` from `pce/schema.py`. -/
structure ProceduralMemory where
  workflows : List Str := []
  checklists : List Str := []
deriving DecidableEq, Repr

/-- `ProjectState` from `pce/schema.py`. -/
structure ProjectState where
  project_name : Str := []
  summary : Str := []
  active_workstream : Str := []
  pending_tasks : List Str := []
  constraints : List Str := []
deriving DecidableEq, Repr

/-- `Preferences` from `pce/schema.py`.  `other : Dict[str, str]` is modelled
as an association list in insertion order. -/
structure Preferences where
  style : Str := []
  tone : Str := []
  constraints : List Str := []
  other : List (Str × Str) := []
deriving DecidableEq, Repr

/-- `RecapFrame` from `pce/schema.py`. -/
structure RecapFrame where
  timestamp : Str
  key_topics : List Str
  distilled_user_intent : Str
  distilled_system_output : Str
  tags : List Str
  semantic : SemanticMemory := {}
  procedural : ProceduralMemory := {}
  project_state : ProjectState := {}
  preferences : Preferences := {}
  raw_user_message : Str := []
  raw_assistant_message : Str := []
deriving DecidableEq, Repr

/-- `ContextBundle` from `pce/schema.py`. -/
structure ContextBundle where
  project_summary : Str
  active_workstream : Str
  user_prefs : Preferences
  known_constraints : List Str
  recommended_next_steps : List Str
  supporting_frames : List RecapFrame
deriving DecidableEq, Repr

/-- JSON-like values as produced/consumed by the `to_dict`/`from_dict`
methods: strings, arrays of strings, string-to-string maps never occur
nested deeper than one object level in the schema, so this fragment of JSON
is sufficient to express every serialized frame (and, for `load_all`, also
top-level non-object records). -/
inductive JValue where
  | jstr : Str → JValue
  | jarr : List Str → JValue
  | jobj : List (Str × JValue) → JValue

abbrev Jdict := List (Str × JValue)

instance : Inhabited JValue := ⟨.jstr []⟩

/-- `data.get(key)`. -/
def jget (d : Jdict) (k : Str) : Option JValue :=
  (d.find? fun kv => decide (kv.1 = k)).map (·.2)

/-- `str(data.get(key, ""))` for a well-shaped field: a present string is
returned, an absent field defaults to `""`.  (Python would `str()`-coerce a
present non-string; such records are outside the well-shaped fragment the
round-trip and `load_all` theorems quantify over.) -/
def jgetStr (d : Jdict) (k : Str) : Str :=
  match jget d k with
  | some (.jstr s) => s
  | _ => []

/-- `list(data.get(key, []))` for a well-shaped field. -/
def jgetArr (d : Jdict) (k : Str) : List Str :=
  match jget d k with
  | some (.jarr xs) => xs
  | _ => []

/-- `dict(data.get(key, {}))` restricted to string values
(`Preferences.other`). -/
def jgetMap (d : Jdict) (k : Str) : List (Str × Str) :=
  match jget d k with
  | some (.jobj fs) =>
    fs.map fun kv => (kv.1, match kv.2 with | .jstr s => s | _ => [])
  | _ => []

def SemanticMemory.to_dict (m : SemanticMemory) : Jdict :=
  [("concepts".data, .jarr m.concepts), ("notes".data, .jstr m.notes)]

/-- `SemanticMemory.from_dict`; `if not data` treats both a missing and an
empty dict as the default. -/
def SemanticMemory.from_dict (data : Option JValue) : SemanticMemory :=
  match data with
  | some (.jobj d) =>
    if d.isEmpty then {}
    else { concepts := jgetArr d "concepts".data, notes := jgetStr d "notes".data }
  | _ => {}

def ProceduralMemory.to_dict (m : ProceduralMemory) : Jdict :=
  [("workflows".data, .jarr m.workflows), ("checklists".data, .jarr m.checklists)]

def ProceduralMemory.from_dict (data : Option JValue) : ProceduralMemory :=
  match data with
  | some (.jobj d) =>
    if d.isEmpty then {}
    else { workflows := jgetArr d "workflows".data, checklists := jgetArr d "checklists".data }
  | _ => {}

def ProjectState.to_dict (m : ProjectState) : Jdict :=
  [("project_name".data, .jstr m.project_name), ("summary".data, .jstr m.summary),
   ("active_workstream".data, .jstr m.active_workstream),
   ("pending_tasks".data, .jarr m.pending_tasks), ("constraints".data, .jarr m.constraints)]

def ProjectState.from_dict (data : Option JValue) : ProjectState :=
  match data with
  | some (.jobj d) =>
    if d.isEmpty then {}
    else
      { project_name := jgetStr d "project_name".data
        summary := jgetStr d "summary".data
        active_workstream := jgetStr d "active_workstream".data
        pending_tasks := jgetArr d "pending_tasks".data
        constraints := jgetArr d "constraints".data }
  | _ => {}

def Preferences.to_dict (m : Preferences) : Jdict :=
  [("style".data, .jstr m.style), ("tone".data, .jstr m.tone),
   ("constraints".data, .jarr m.constraints),
   ("other".data, .jobj (m.other.map fun kv => (kv.1, .jstr kv.2)))]

def Preferences.from_dict (data : Option JValue) : Preferences :=
  match data with
  | some (.jobj d) =>
    if d.isEmpty then {}
    else
      { style := jgetStr d "style".data
        tone := jgetStr d "tone".data
        constraints := jgetArr d "constraints".data
        other := jgetMap d "other".data }
  | _ => {}

def RecapFrame.to_dict (f : RecapFrame) : Jdict :=
  [("timestamp".data, .jstr f.timestamp),
   ("key_topics".data, .jarr f.key_topics),
   ("distilled_user_intent".data, .jstr f.distilled_user_intent),
   ("distilled_system_output".data, .jstr f.distilled_system_output),
   ("tags".data, .jarr f.tags),
   ("semantic".data, .jobj f.semantic.to_dict),
   ("procedural".data, .jobj f.procedural.to_dict),
   ("project_state".data, .jobj f.project_state.to_dict),
   ("preferences".data, .jobj f.preferences.to_dict),
   ("raw_user_message".data, .jstr f.raw_user_message),
   ("raw_assistant_message".data, .jstr f.raw_assistant_message)]

def RecapFrame.from_dict (data : Jdict) : RecapFrame :=
  { timestamp := jgetStr data "timestamp".data
    key_topics := jgetArr data "key_topics".data
    distilled_user_intent := jgetStr data "distilled_user_intent".data
    distilled_system_output := jgetStr data "distilled_system_output".data
    tags := jgetArr data "tags".data
    semantic := SemanticMemory.from_dict (jget data "semantic".data)
    procedural := ProceduralMemory.from_dict (jget data "procedural".data)
    project_state := ProjectState.from_dict (jget data "project_state".data)
    preferences := Preferences.from_dict (jget data "preferences".data)
    raw_user_message := jgetStr data "raw_user_message".data
    raw_assistant_message := jgetStr data "raw_assistant_message".data }

/-- The `dedup_list` helper of `compress_frame` (also the `dedup` helper of
`reconstruct_state`, which is textually identical): strip each value, drop
empties and duplicates, keep first-seen order. -/
def pyDedupNonEmpty (values : List Str) : List Str :=
  go values []
where
  go : List Str → List Str → List Str
    | [], _ => []
    | v :: vs, seen =>
      let vv := pyStrip v
      if vv.isEmpty || vv ∈ seen then go vs seen else vv :: go vs (vv :: seen)

/-- Tag normalisation inside `compress_frame`: strip+lowercase, drop empties
and duplicates, then sort.  Python `sorted` on strings is a stable sort in
lexicographic order; on the deduplicated (hence distinct) tags any sort in
`lexLe` order agrees with it. -/
def normalizeTags (tags : List Str) : List Str :=
  (dedupFirst ((tags.map fun t => pyToLower (pyStrip t)).filter
    fun t => !t.isEmpty)).insertionSort (fun a b => lexLe a b)

/-- `compress_frame` from `pce/compression.py` (functional version of the
in-place mutation). -/
def compress_frame (frame : RecapFrame) (maxTextChars : Nat := 600) : RecapFrame :=
  let dui := compress_text frame.distilled_user_intent maxTextChars
  let dso := compress_text frame.distilled_system_output maxTextChars
  let rum := compress_text frame.raw_user_message maxTextChars
  let ram := compress_text frame.raw_assistant_message maxTextChars
  { frame with
    distilled_user_intent := dui
    distilled_system_output := dso
    raw_user_message := rum
    raw_assistant_message := ram
    key_topics :=
      extract_keywords
        [dui, dso, frame.semantic.notes, frame.project_state.summary, rum, ram] 12
    tags := normalizeTags frame.tags
    semantic := { frame.semantic with concepts := pyDedupNonEmpty frame.semantic.concepts }
    procedural :=
      { workflows := pyDedupNonEmpty frame.procedural.workflows
        checklists := pyDedupNonEmpty frame.procedural.checklists }
    project_state :=
      { frame.project_state with
        pending_tasks := pyDedupNonEmpty frame.project_state.pending_tasks
        constraints := pyDedupNonEmpty frame.project_state.constraints }
    preferences :=
      { frame.preferences with constraints := pyDedupNonEmpty frame.preferences.constraints } }

/-- `_classify_tags` from `pce/api.py`. -/
def classify_tags (userMsg assistantMsg : Str) : List Str :=
  let text := pyToLower (userMsg ++ ' ' :: assistantMsg)
  let tags : List Str := []
  let tags := if ["code", "api", "schema", "algorithm", "implementation", "stack", "bug"].any
      (fun k => pyContains text k.data) then tags ++ ["tech".data] else tags
  let tags := if ["plan", "roadmap", "milestone", "schedule", "timeline", "next steps"].any
      (fun k => pyContains text k.data) then tags ++ ["plan".data] else tags
  let tags := if ["think", "reflect", "meta", "why", "philosophy", "epistemology"].any
      (fun k => pyContains text k.data) then tags ++ ["meta".data] else tags
  if tags.isEmpty then ["general".data] else tags

/-- `_distill_intent` from `pce/api.py`. -/
def distill_intent (userMsg : Str) : Str := compress_text userMsg 400

/-- `_distill_output` from `pce/api.py`. -/
def distill_output (assistantMsg : Str) : Str := compress_text assistantMsg 400

/-- `_extract_semantic` from `pce/api.py`. -/
def extract_semantic (userMsg assistantMsg : Str) : SemanticMemory :=
  { concepts := extract_keywords [userMsg, assistantMsg] 8
    notes := compress_text assistantMsg 400 }

/-- `_extract_procedural` from `pce/api.py`. -/
def extract_procedural (userMsg assistantMsg : Str) : ProceduralMemory :=
  let combined := userMsg ++ '\n' :: assistantMsg
  let lines := (pySplitlines combined).map (pyStripChars ['-', '*', '•', ' ', '\t'])
  let workflows := lines.filter fun ln =>
    let lower := pyToLower ln
    ["step ", "1.", "2.", "3.", "first", "second", "third"].any
      fun p => p.data.isPrefixOf lower
  { workflows := workflows, checklists := [] }

/-- One line of `_extract_project_state`'s scan.  `none` models the
`IndexError` Python raises when a marker occurs in the lowercased line but
not verbatim in the original (e.g. `"Project: X"`): the containment test is
done on `line.lower()` but `line.split("project:", 1)` runs on `line`.
`some (some n)` means this line sets the project name and breaks the loop;
`some none` means the scan moves to the next line. -/
def projLineResult (line : Str) : Option (Option Str) :=
  let lower := pyToLower line
  let nameCheck : Option (Option Str) :=
    if pyContains lower "project name:".data then
      match pySplitAfterFirst "project name:".data line with
      | none => none
      | some tail =>
        let after := pyStrip tail
        some (if after.isEmpty then none else some after)
    else some none
  if pyContains lower "project:".data then
    match pySplitAfterFirst "project:".data line with
    | none => none
    | some tail =>
      let after := pyStrip tail
      if after.isEmpty then nameCheck else some (some after)
  else nameCheck

/-- The line loop of `_extract_project_state`: first line that yields a
non-empty remainder wins; a crashing line aborts. -/
def projNameOfLines : List Str → Option Str
  | [] => some []
  | l :: rest =>
    match projLineResult l with
    | none => none
    | some (some n) => some n
    | some none => projNameOfLines rest

/-- `_extract_project_state` from `pce/api.py`; `none` models the
`IndexError` described at `projLineResult`. -/
def extract_project_state (userMsg assistantMsg : Str) : Option ProjectState :=
  (projNameOfLines (pySplitlines (userMsg ++ '\n' :: assistantMsg))).map
    fun projectName =>
      let summary := distill_intent userMsg
      let lowerUser := pyToLower userMsg
      let activeWorkstream :=
        if pyContains lowerUser "currently".data || pyContains lowerUser "right now".data
        then summary else []
      { project_name := projectName
        summary := summary
        active_workstream := activeWorkstream
        pending_tasks := []
        constraints := [] }

/-- `_extract_preferences` from `pce/api.py`. -/
def extract_preferences (userMsg assistantMsg : Str) : Preferences :=
  let text := pyToLower (userMsg ++ ' ' :: assistantMsg)
  let style : Str := []
  let style :=
    if pyContains text "concise".data || pyContains text "short answer".data
    then "concise".data else style
  let style :=
    if pyContains text "detailed".data || pyContains text "step-by-step".data
    then "detailed".data else style
  let tone : Str := []
  let tone := if pyContains text "casual".data then "casual".data else tone
  let tone := if pyContains text "formal".data then "formal".data else tone
  let constraints :=
    (if pyContains text "no code".data then ["avoid code unless requested".data] else []) ++
    (if pyContains text "no examples".data then ["avoid examples unless requested".data] else [])
  { style := style, tone := tone, constraints := constraints, other := [] }

/-- `save_context` from `pce/api.py` with the wall-clock timestamp passed in
explicitly; `none` propagates the `IndexError` of `_extract_project_state`.
Returns the compressed frame that `save_context` both persists and returns. -/
def save_context (timestamp userMsg assistantMsg : Str) : Option RecapFrame :=
  (extract_project_state userMsg assistantMsg).map fun projectState =>
    let semantic := extract_semantic userMsg assistantMsg
    let frame : RecapFrame :=
      { timestamp := timestamp
        key_topics :=
          extract_keywords [userMsg, assistantMsg, semantic.notes, projectState.summary] 12
        distilled_user_intent := distill_intent userMsg
        distilled_system_output := distill_output assistantMsg
        tags := classify_tags userMsg assistantMsg
        semantic := semantic
        procedural := extract_procedural userMsg assistantMsg
        project_state := projectState
        preferences := extract_preferences userMsg assistantMsg
        raw_user_message := userMsg
        raw_assistant_message := assistantMsg }
    compress_frame frame

/-- `MAX_FRAMES` from `pce/storage.py`. -/
def MAX_FRAMES : Nat := 300

/-- `_prune_if_needed` from `pce/storage.py`, on the store contents: keep
only the most recent `MAX_FRAMES` frames once the count exceeds the cap. -/
def pruneIfNeeded (frames : List RecapFrame) : List RecapFrame :=
  if frames.length ≤ MAX_FRAMES then frames
  else frames.drop (frames.length - MAX_FRAMES)

/-- `write_frame` from `pce/storage.py`, on the store contents: the frame is
persisted as its serialized dict, so what later reads back is
`from_dict (to_dict f)`; after the append the store is pruned. -/
def write_frame (store : List RecapFrame) (f : RecapFrame) : List RecapFrame :=
  pruneIfNeeded (store ++ [RecapFrame.from_dict f.to_dict])

/-- `load_all` from `pce/storage.py`, over the raw lines of the store file
and an abstract JSON parser `parse` (`json.loads`): blank lines are skipped,
lines that fail to parse (`parse` returns `none`, Python `JSONDecodeError`)
are skipped, and a line parsing to a JSON object becomes a frame.  A line
parsing to a *non-object* JSON value makes `RecapFrame.from_dict` raise
(`AttributeError` on `.get`), which `load_all` does not catch: the overall
result is `none`. -/
def load_all (parse : Str → Option JValue) : List Str → Option (List RecapFrame)
  | [] => some []
  | raw :: rest =>
    let line := pyStrip raw
    if line.isEmpty then load_all parse rest
    else
      match parse line with
      | none => load_all parse rest
      | some (.jobj d) =>
        (load_all parse rest).map fun fs => RecapFrame.from_dict d :: fs
      | some _ => none

/-- Word characters for the `\b` boundary (`[a-zA-Z0-9_]`; the haystack is
already lowercased). -/
def isWordChar (c : Char) : Bool :=
  ('a' ≤ c && c ≤ 'z') || ('A' ≤ c && c ≤ 'Z') || ('0' ≤ c && c ≤ '9') || c = '_'

/-- An exact fraction `num / den` (`den` always positive here), modelling a
Python float score.  Arithmetic on `Float` in `_score_frame` is modelled
exactly; on the concrete stores in this file every score is a small integer,
for which float and exact arithmetic and comparisons coincide. -/
structure Frac where
  num : Int
  den : Int
deriving DecidableEq, Repr

/-- Value order on fractions with positive denominators
(cross-multiplication). -/
def Frac.lt (a b : Frac) : Prop := a.num * b.den < b.num * a.den

/-- `a ≤ b` on fractions with positive denominators. -/
def Frac.le (a b : Frac) : Prop := a.num * b.den ≤ b.num * a.den

/-- Value equality on fractions with positive denominators. -/
def Frac.eqv (a b : Frac) : Prop := a.num * b.den = b.num * a.den

instance : DecidableRel Frac.lt := fun a b => by unfold Frac.lt; infer_instance

instance : DecidableRel Frac.le := fun a b => by unfold Frac.le; infer_instance

instance : DecidableRel Frac.eqv := fun a b => by unfold Frac.eqv; infer_instance

/-- `1.0 + (index / max(total - 1, 1))` as an exact fraction. -/
def recencyWeight (index total : Nat) : Frac :=
  { num := (max (total - 1) 1 : Nat) + (index : Int), den := (max (total - 1) 1 : Nat) }

/-- `_score_frame` from `pce/retrieval.py` (float arithmetic modelled
exactly, see `Frac`). -/
def score_frame (queryTokens : List Str) (frame : RecapFrame) (index total : Nat) : Frac :=
  if queryTokens.isEmpty then
    recencyWeight index total
  else
    let text := pyToLower (joinSp
      [joinSp frame.key_topics, frame.distilled_user_intent,
       frame.distilled_system_output, frame.project_state.summary,
       frame.raw_user_message])
    let matchCount :=
      (queryTokens.filter fun tok => !tok.isEmpty && hasWordMatch tok text).length
    if matchCount = 0 then { num := 0, den := 1 }
    else
      { num := (matchCount : Int) * (recencyWeight index total).num
        den := (recencyWeight index total).den }
where
  /-- `re.search(r"\b" + re.escape(tok) + r"\b", text)` for a token made of
  word characters: `tok` occurs at a position whose neighbours (when they
  exist) are non-word characters. -/
  hasWordMatch (tok text : Str) : Bool :=
    (List.range (text.length + 1)).any fun i =>
      (text.drop i).take tok.length = tok &&
      (i = 0 || !(isWordChar (text.getD (i - 1) ' '))) &&
      (text.length ≤ i + tok.length || !(isWordChar (text.getD (i + tok.length) ' ')))

/-- Sort order of `retrieve_relevant_frames`: ascending in
`(-score, timestamp)`. -/
def scoredLe (a b : Frac × RecapFrame) : Prop :=
  Frac.lt b.1 a.1 ∨ (Frac.eqv a.1 b.1 ∧ lexLe a.2.timestamp b.2.timestamp)

instance : DecidableRel scoredLe := fun a b => by
  unfold scoredLe; infer_instance

/-- `retrieve_relevant_frames` from `pce/retrieval.py`, with `load_all()`
replaced by the given store contents.  Python's stable `list.sort` is
modelled by the stable `List.insertionSort` on the same key order. -/
def retrieve_relevant_frames (query : Str) (maxResults : Nat)
    (frames : List RecapFrame) : List RecapFrame :=
  if frames.isEmpty then []
  else
    let queryTokens := if query.isEmpty then [] else tokenize query
    let total := frames.length
    let scored := ((List.range total).zip frames).filterMap fun p =>
      let score := score_frame queryTokens p.2 p.1 total
      if score.le { num := 0, den := 1 } ∧ ¬queryTokens.isEmpty then none
      else some (score, p.2)
    let sortedScored := scored.insertionSort scoredLe
    (sortedScored.take maxResults).filterMap fun sf =>
      if Frac.lt { num := 0, den := 1 } sf.1 ∨ queryTokens.isEmpty then some sf.2 else none

/-- Python `d[k] = v` on an insertion-ordered dict modelled as an
association list: update in place, or append a new key. -/
def dictUpsert (m : List (Str × Str)) (k v : Str) : List (Str × Str) :=
  if m.any fun kv => kv.1 = k then
    m.map fun kv => if kv.1 = k then (k, v) else kv
  else m ++ [(k, v)]

/-- The mutable locals of `reconstruct_state`'s aggregation loop. -/
structure AggState where
  project_summary : Str := []
  active_workstream : Str := []
  pending_tasks : List Str := []
  constraints : List Str := []
  style : Str := []
  tone : Str := []
  pref_constraints : List Str := []
  other_prefs : List (Str × Str) := []

/-- One iteration of the `for frame in frames` loop of `reconstruct_state`. -/
def aggStep (st : AggState) (frame : RecapFrame) : AggState :=
  let ps := frame.project_state
  { project_summary := if ps.summary.isEmpty then st.project_summary else ps.summary
    active_workstream :=
      if ps.active_workstream.isEmpty then st.active_workstream else ps.active_workstream
    pending_tasks := st.pending_tasks ++ ps.pending_tasks
    constraints := st.constraints ++ ps.constraints
    style := if frame.preferences.style.isEmpty then st.style else frame.preferences.style
    tone := if frame.preferences.tone.isEmpty then st.tone else frame.preferences.tone
    pref_constraints := st.pref_constraints ++ frame.preferences.constraints
    other_prefs :=
      frame.preferences.other.foldl (fun m kv => dictUpsert m kv.1 kv.2) st.other_prefs }

/-- A placeholder frame used only to express Python's `frames[-1]` on a list
known to be non-empty (`getLastD`); it never reaches any result. -/
def defaultFrame : RecapFrame :=
  { timestamp := [], key_topics := [], distilled_user_intent := []
    distilled_system_output := [], tags := [] }

/-- `reconstruct_state` from `pce/retrieval.py`, with `load_all()` replaced
by the given store contents.  `all_frames[-max_frames:]` keeps the whole
list when `max_frames = 0` (Python `-0` slicing). -/
def reconstruct_state (query : Str) (maxFrames : Nat)
    (allFrames : List RecapFrame) : ContextBundle :=
  let frames := retrieve_relevant_frames query maxFrames allFrames
  let frames :=
    if frames.isEmpty then
      if maxFrames = 0 then allFrames else allFrames.drop (allFrames.length - maxFrames)
    else frames
  if frames.isEmpty then
    { project_summary := [], active_workstream := [], user_prefs := {}
      known_constraints := [], recommended_next_steps := [], supporting_frames := [] }
  else
    let primary := frames.getLastD defaultFrame
    let st := frames.foldl aggStep {}
    let projectSummary :=
      if st.project_summary.isEmpty then
        if primary.distilled_user_intent.isEmpty then joinBar primary.key_topics
        else primary.distilled_user_intent
      else st.project_summary
    let activeWorkstream :=
      if st.active_workstream.isEmpty then primary.project_state.active_workstream
      else st.active_workstream
    let pendingTasks := pyDedupNonEmpty st.pending_tasks
    let constraints := pyDedupNonEmpty st.constraints
    let prefConstraints := pyDedupNonEmpty st.pref_constraints
    let recommendedNextSteps :=
      if !pendingTasks.isEmpty then pendingTasks.take 5
      else
        let base := if activeWorkstream.isEmpty then projectSummary else activeWorkstream
        if base.isEmpty then [] else ["Continue: ".data ++ base]
    { project_summary := projectSummary
      active_workstream := activeWorkstream
      user_prefs :=
        { style := st.style, tone := st.tone
          constraints := prefConstraints, other := st.other_prefs }
      known_constraints := constraints
      recommended_next_steps := recommendedNextSteps
      supporting_frames := frames }
where
  /-- `" | ".join(...)`. -/
  joinBar (blocks : List Str) : Str := List.intercalate " | ".data blocks

/-- `load_context` from `pce/api.py`, over given store contents. -/
def load_context (query : Str) (store : List RecapFrame) : ContextBundle :=
  reconstruct_state query 12 store

/-- `summarize` from `pce/api.py`, over given store contents. -/
def summarize (store : List RecapFrame) : ContextBundle :=
  reconstruct_state [] 20 store

/-! Predicates used to state the compression theorems. -/

/-- Every block is a non-empty run of characters accepted by `keep`. -/
def runsOK (keep : Char → Bool) (ws : List Str) : Prop :=
  ∀ w ∈ ws, w ≠ [] ∧ ∀ c ∈ w, keep c = true

/-- A whitespace-normalised string: single spaces joining non-empty
whitespace-free words (the invariant of `" ".join(text.split())`). -/
def NormalForm (l : Str) : Prop :=
  ∃ ws, runsOK (fun c => !isPySpace c) ws ∧ l = joinSp ws

/-- No sentence delimiter occurs in the string. -/
def delimFree (l : Str) : Prop := ∀ c ∈ l, isDelim c = false

/-- The string is a delimiter-free body followed by one delimiter. -/
def EndsDelim (s : Str) : Prop :=
  ∃ b d, isDelim d = true ∧ delimFree b ∧ s = b ++ [d]

/-- A character allowed in whitespace-normalised text: not whitespace, or
the plain space. -/
def okChar (c : Char) : Bool := !isPySpace c || c = ' '

/-- Local whitespace discipline: every character is `okChar` and no two
adjacent spaces.  This is exactly the property every contiguous substring of
a whitespace-normalised string enjoys. -/
def looseTidy : Str → Bool
  | [] => true
  | [c] => okChar c
  | c :: d :: rest => okChar c && !(c = ' ' && d = ' ') && looseTidy (d :: rest)

/-- The first character, if any, is not whitespace. -/
def headOK (l : Str) : Bool :=
  match l with
  | [] => true
  | c :: _ => !isPySpace c

/-- The last character, if any, is not whitespace. -/
def lastOK (l : Str) : Bool :=
  match l.getLast? with
  | none => true
  | some c => !isPySpace c

/-- A fully whitespace-normalised string: locally tidy and not starting or
ending in whitespace — equivalently, a fixed point of
`" ".join(s.split())`. -/
def Tidy (l : Str) : Prop :=
  looseTidy l = true ∧ headOK l = true ∧ lastOK l = true

/-- Shape of a sentence produced by `splitSentences` on normalised input. -/
def SentOK (s : Str) : Prop :=
  s ≠ [] ∧ Tidy s ∧ (EndsDelim s ∨ delimFree s)

/-- Shape of a sentence list produced by `splitSentences` on normalised
input: all sentences well-shaped, and every sentence except possibly the
final remainder carries its terminating delimiter. -/
def SentencesOK (ss : List Str) : Prop :=
  (∀ s ∈ ss, SentOK s) ∧ ∀ s ∈ ss.dropLast, EndsDelim s

/-- Keyword output order asserted by the spec: descending frequency in the
non-stopword token stream `toks`, ties by ascending token. -/
def kwOrder (toks : List Str) (a b : Str) : Prop :=
  toks.count b < toks.count a ∨ (toks.count a = toks.count b ∧ lexLt a b = true)

/-- Truncation behaviour of `compress_text` on the joined sentence string
`res`, with the code's actual convention: when `res` exceeds the budget the
cut happens at the last space STRICTLY BEFORE index `n`
(`res.rfind(" ", 0, n)` searches `res[0:n]`), with trailing whitespace
trimmed; when `res[0:n]` holds no space the result is the hard cut
`res.take n`. -/
def TruncSpec (res o : Str) (n : Nat) : Prop :=
  (res.length ≤ n ∧ o = res) ∨
  (n < res.length ∧
    (((∀ j : Nat, (res.take n)[j]? ≠ some ' ') ∧ o = res.take n) ∨
      ∃ cut, (res.take n)[cut]? = some ' ' ∧
        (∀ j : Nat, cut < j → (res.take n)[j]? ≠ some ' ') ∧
        o = rstripPy (res.take cut)))

/-! Spec-side definitions (written from the claims' words, for the
refutation/refinement theorems; everything above is from the source). -/

/-- The compression function as claim C4 words it, reading "the last space
at or before index `n`" with the same 0-based convention as its
"hard-truncated at index `n`" clause: the cut index may equal `n`.  Only the
truncation step differs from `compress_text`. -/
def c4ClaimCompress (text : Str) (maxChars : Nat) : Str :=
  let cleaned := joinSp (pyWords (pyStrip text))
  if cleaned.isEmpty then []
  else
    let res := joinSp (dedupFirst (splitSentences cleaned))
    if res.length ≤ maxChars then res
    else
      match lastSpaceIdx (res.take (maxChars + 1)) with
      | none => res.take maxChars
      | some cut => rstripPy (res.take cut)

/-- Project-name extraction as claim C9 words it: a `"project:"` match
anywhere in the combined text takes priority over any `"project name:"`
match, even on an earlier line. -/
def c9ClaimProjectName (userMsg assistantMsg : Str) : Str :=
  let lines := pySplitlines (userMsg ++ '\n' :: assistantMsg)
  match lines.find? (fun l => pyContains (pyToLower l) "project:".data) with
  | some l => pyStrip ((pySplitAfterFirst "project:".data l).getD [])
  | none =>
    match lines.find? (fun l => pyContains (pyToLower l) "project name:".data) with
    | some l => pyStrip ((pySplitAfterFirst "project name:".data l).getD [])
    | none => []

/-- `readAll` as claim C8 words it: in file order, exactly the frames of the
lines that parse; blank lines and unparsable lines are skipped. -/
def readAllSpec (parse : Str → Option JValue) (lines : List Str) : List RecapFrame :=
  lines.filterMap fun raw =>
    let l := pyStrip raw
    if l.isEmpty then none
    else
      (parse l).bind fun v =>
        match v with
        | .jobj d => some (RecapFrame.from_dict d)
        | _ => none

/-! Well-shapedness of persisted records (the fragment on which the
embedded `from_dict` agrees with the Python one; see `jgetStr`). -/

/-- If the key is present its value satisfies `p`. -/
def fieldKind (d : Jdict) (k : Str) (p : JValue → Bool) : Bool :=
  match jget d k with
  | none => true
  | some v => p v

def JValue.isStr : JValue → Bool | .jstr _ => true | _ => false

def JValue.isArr : JValue → Bool | .jarr _ => true | _ => false

/-- An object all of whose values are strings (`Preferences.other`). -/
def JValue.isStrMap : JValue → Bool
  | .jobj fs => fs.all fun kv => kv.2.isStr
  | _ => false

def wellShapedSemantic : JValue → Bool
  | .jobj d => fieldKind d "concepts".data JValue.isArr && fieldKind d "notes".data JValue.isStr
  | _ => false

def wellShapedProcedural : JValue → Bool
  | .jobj d =>
    fieldKind d "workflows".data JValue.isArr && fieldKind d "checklists".data JValue.isArr
  | _ => false

def wellShapedProjectState : JValue → Bool
  | .jobj d =>
    fieldKind d "project_name".data JValue.isStr && fieldKind d "summary".data JValue.isStr &&
    fieldKind d "active_workstream".data JValue.isStr &&
    fieldKind d "pending_tasks".data JValue.isArr && fieldKind d "constraints".data JValue.isArr
  | _ => false

def wellShapedPreferences : JValue → Bool
  | .jobj d =>
    fieldKind d "style".data JValue.isStr && fieldKind d "tone".data JValue.isStr &&
    fieldKind d "constraints".data JValue.isArr && fieldKind d "other".data JValue.isStrMap
  | _ => false

/-- A persisted frame record of the expected shape: every known key that is
present has a value of its declared kind. -/
def wellShapedFrameDict (d : Jdict) : Bool :=
  fieldKind d "timestamp".data JValue.isStr && fieldKind d "key_topics".data JValue.isArr &&
  fieldKind d "distilled_user_intent".data JValue.isStr &&
  fieldKind d "distilled_system_output".data JValue.isStr &&
  fieldKind d "tags".data JValue.isArr &&
  fieldKind d "semantic".data wellShapedSemantic &&
  fieldKind d "procedural".data wellShapedProcedural &&
  fieldKind d "project_state".data wellShapedProjectState &&
  fieldKind d "preferences".data wellShapedPreferences &&
  fieldKind d "raw_user_message".data JValue.isStr &&
  fieldKind d "raw_assistant_message".data JValue.isStr

/-! Concrete inputs used by the scenario and counterexample theorems. -/

/-- A `json.loads` behaviour on the one-line file `"[]"`: the line is valid
JSON parsing to the empty array. -/
def c8Parse (l : Str) : Option JValue :=
  if l = "[]".data then some (.jarr []) else none

def c8Lines : List Str := ["[]".data]

def orionTs1 : Str := "2024-01-01T00:00:00Z".data
def orionTs2 : Str := "2024-01-01T00:00:01Z".data
def orionUser1 : Str := "hello world".data
def orionAssistant1 : Str := "hi".data
def orionUser2 : Str := "project: Orion. currently migrating the database".data
def orionAssistant2 : Str := "ok".data

/-- The first saved frame of the spec's two-interaction scenario. -/
def orionFrame1 : RecapFrame :=
  (save_context orionTs1 orionUser1 orionAssistant1).getD defaultFrame

/-- The second saved frame (its user text contains `"project: Orion"` and
`"currently migrating the database"`). -/
def orionFrame2 : RecapFrame :=
  (save_context orionTs2 orionUser2 orionAssistant2).getD defaultFrame

/-- The store after the two saves. -/
def orionStore : List RecapFrame := write_frame (write_frame [] orionFrame1) orionFrame2

/-- The bundle produced by loading with the empty query. -/
def orionBundle : ContextBundle := load_context [] orionStore

def c9User : Str := "project name: Alpha\nproject: Beta".data

/-- Decidable per-line hypothesis for the amended C8 statement: the line
either fails to parse or parses to a well-shaped frame object. -/
def goodLine (parse : Str → Option JValue) (l : Str) : Bool :=
  match parse (pyStrip l) with
  | none => true
  | some (.jobj d) => wellShapedFrameDict d
  | some _ => false

/-- A `json.loads` behaviour for the two-line file used as the C8 witness:
`{}` parses to the empty object, the second line is not valid JSON. -/
def c8GoodParse (l : Str) : Option JValue :=
  if l = "{}".data then some (.jobj []) else none

def c8GoodLines : List Str := ["{}".data, "not json".data]

/-- The project state the code extracts on the C9 counterexample input. -/
def c9ExtractedPS : ProjectState := (extract_project_state c9User []).getD {}

/-! ## Theorems -/

/-! ### Serialization round-trip (claim C6) -/

theorem strMap_roundtrip (m : List (Str × Str)) :
    (m.map fun kv => (kv.1, JValue.jstr kv.2)).map
      (fun kv => (kv.1, match kv.2 with | .jstr s => s | _ => [])) = m := by
  induction m with
  | nil => rfl
  | cons kv rest ih => simp only [List.map_cons, ih]

theorem sem_from_to (m : SemanticMemory) :
    SemanticMemory.from_dict (some (.jobj m.to_dict)) = m := by
  cases m; rfl

theorem proc_from_to (m : ProceduralMemory) :
    ProceduralMemory.from_dict (some (.jobj m.to_dict)) = m := by
  cases m; rfl

theorem ps_from_to (m : ProjectState) :
    ProjectState.from_dict (some (.jobj m.to_dict)) = m := by
  cases m; rfl

theorem prefs_from_to (m : Preferences) :
    Preferences.from_dict (some (.jobj m.to_dict)) = m := by
  cases m with
  | mk s t c o =>
    have h1 : Preferences.from_dict (some (.jobj (Preferences.mk s t c o).to_dict)) =
        Preferences.mk s t c
          ((o.map fun kv => (kv.1, JValue.jstr kv.2)).map
            (fun kv => (kv.1, match kv.2 with | .jstr s => s | _ => []))) := rfl
    rw [h1, strMap_roundtrip]

/-- Deserializing a serialized frame restores it field by field. -/
theorem from_dict_to_dict (f : RecapFrame) : RecapFrame.from_dict f.to_dict = f := by
  cases f with
  | mk ts kt dui dso tags sem proc ps prefs rum ram =>
    have h1 : RecapFrame.from_dict
          (RecapFrame.mk ts kt dui dso tags sem proc ps prefs rum ram).to_dict =
        RecapFrame.mk ts kt dui dso tags
          (SemanticMemory.from_dict (some (.jobj sem.to_dict)))
          (ProceduralMemory.from_dict (some (.jobj proc.to_dict)))
          (ProjectState.from_dict (some (.jobj ps.to_dict)))
          (Preferences.from_dict (some (.jobj prefs.to_dict))) rum ram := rfl
    rw [h1, sem_from_to, proc_from_to, ps_from_to, prefs_from_to]

/-- C6: serialization round-trips: for every well-typed frame `f`
(well-typedness is the typing of `RecapFrame` itself),
`RecapFrame.from_dict (f.to_dict) = f` field by field. -/
theorem C6_serialization_roundtrip (f : RecapFrame) :
    RecapFrame.from_dict f.to_dict = f :=
  from_dict_to_dict f

/-! ### Retention (claim C7) -/

theorem write_frame_eq (store : List RecapFrame) (f : RecapFrame) :
    write_frame store f = pruneIfNeeded (store ++ [f]) := by
  rw [write_frame, from_dict_to_dict]

theorem pruneIfNeeded_length_le (l : List RecapFrame) :
    (pruneIfNeeded l).length ≤ MAX_FRAMES := by
  unfold pruneIfNeeded
  split
  · assumption
  · simp only [List.length_drop]
    omega

theorem write_frame_length_le (store : List RecapFrame) (f : RecapFrame) :
    (write_frame store f).length ≤ MAX_FRAMES := by
  rw [write_frame_eq]; exact pruneIfNeeded_length_le _

theorem foldl_write_frame (fs : List RecapFrame) :
    ∀ store : List RecapFrame, store.length ≤ MAX_FRAMES →
      List.foldl write_frame store fs =
        (store ++ fs).drop ((store ++ fs).length - MAX_FRAMES) := by
  induction fs with
  | nil =>
    intro store h
    simp only [List.foldl_nil, List.append_nil]
    rw [Nat.sub_eq_zero_of_le h, List.drop_zero]
  | cons f fs ih =>
    intro store h
    rw [List.foldl_cons, ih _ (write_frame_length_le store f), write_frame_eq]
    unfold pruneIfNeeded
    split
    · rw [List.append_assoc, List.singleton_append]
    · rename_i hlen
      have hstore : store.length = MAX_FRAMES := by
        simp only [List.length_append, List.length_cons, List.length_nil,
          Nat.not_le] at hlen
        omega
      have hd : (store ++ [f]).length - MAX_FRAMES = 1 := by
        simp only [List.length_append, List.length_cons, List.length_nil]
        omega
      rw [hd]
      have hassoc : store ++ f :: fs = (store ++ [f]) ++ fs := by simp
      have hle : 1 ≤ (store ++ [f]).length := by
        simp only [List.length_append, List.length_cons, List.length_nil]
        omega
      have hsplit := (@List.drop_append_of_le_length RecapFrame (store ++ [f]) fs 1 hle).symm
      rw [hassoc, hsplit, List.drop_drop]
      congr 1
      simp only [List.length_drop, List.length_append, List.length_cons,
        List.length_nil]
      omega

/-- C7: after every append the store holds at most 300 frames, and
appending 305 frames to an empty store leaves exactly the most recently
appended 300, in their original write order. -/
theorem C7_retention :
    (∀ (store : List RecapFrame) (f : RecapFrame),
        (write_frame store f).length ≤ 300) ∧
    ∀ fs : List RecapFrame, fs.length = 305 →
      List.foldl write_frame [] fs = fs.drop 5 := by
  constructor
  · exact write_frame_length_le
  · intro fs h
    rw [foldl_write_frame fs [] (by simp [MAX_FRAMES])]
    simp only [List.nil_append]
    rw [h]
    rfl

/-- Witness for C7 at a concrete 305-frame store. -/
theorem C7_retention_witness :
    (List.replicate 305 defaultFrame).length = 305 ∧
      List.foldl write_frame [] (List.replicate 305 defaultFrame) =
        (List.replicate 305 defaultFrame).drop 5 :=
  ⟨List.length_replicate 305 defaultFrame,
    C7_retention.2 _ (List.length_replicate 305 defaultFrame)⟩

/-! ### `preferences.other` is never populated (claim C10) -/

/-- C10: every frame built and persisted by `save_context` has an empty
`preferences.other` mapping — no extraction or finalize step populates it. -/
theorem C10_other_never_populated (ts u a : Str) (f : RecapFrame)
    (h : save_context ts u a = some f) : f.preferences.other = [] := by
  unfold save_context at h
  cases hps : extract_project_state u a with
  | none => rw [hps] at h; simp at h
  | some ps =>
    rw [hps] at h
    simp only [Option.map_some'] at h
    injection h with h'
    rw [← h']
    rfl

/-- Witness for C10 at a concrete interaction. -/
theorem C10_witness :
    save_context "t".data "hi".data "ok".data =
      some ((save_context "t".data "hi".data "ok".data).getD defaultFrame) ∧
    ((save_context "t".data "hi".data "ok".data).getD defaultFrame).preferences.other = [] :=
  ⟨by rfl,
    C10_other_never_populated "t".data "hi".data "ok".data
      ((save_context "t".data "hi".data "ok".data).getD defaultFrame) (by rfl)⟩

/-! ### `load_all` fault tolerance (claim C8) -/

theorem readAllSpec_nil (parse : Str → Option JValue) : readAllSpec parse [] = [] := rfl

theorem readAllSpec_cons_skip (parse : Str → Option JValue) (raw : Str) (rest : List Str)
    (h : (if (pyStrip raw).isEmpty then none else
        (parse (pyStrip raw)).bind fun v =>
          match v with
          | .jobj d => some (RecapFrame.from_dict d)
          | _ => none) = (none : Option RecapFrame)) :
    readAllSpec parse (raw :: rest) = readAllSpec parse rest := by
  unfold readAllSpec
  rw [List.filterMap_cons]
  split
  · rfl
  · rename_i b heq
    rw [heq] at h
    exact absurd h (by simp)

theorem readAllSpec_cons_frame (parse : Str → Option JValue) (raw : Str) (rest : List Str)
    (fr : RecapFrame)
    (h : (if (pyStrip raw).isEmpty then none else
        (parse (pyStrip raw)).bind fun v =>
          match v with
          | .jobj d => some (RecapFrame.from_dict d)
          | _ => none) = some fr) :
    readAllSpec parse (raw :: rest) = fr :: readAllSpec parse rest := by
  unfold readAllSpec
  rw [List.filterMap_cons]
  split
  · rename_i heq
    rw [heq] at h
    exact absurd h (by simp)
  · rename_i b heq
    rw [heq] at h
    injection h with h'
    rw [h']

/-- C8 counterexample: the one-line file `[]` is valid JSON (so the claim
says it is not skipped and the read returns its frames), yet `load_all`
aborts — the Python code raises `AttributeError` in
`RecapFrame.from_dict` because only `json.JSONDecodeError` is caught. -/
theorem C8_counterexample :
    load_all c8Parse c8Lines ≠ some (readAllSpec c8Parse c8Lines) := by decide

/-- C8 amended: on any file content whose lines each either fail to parse or
parse to a well-shaped frame object, `load_all` succeeds (never fails) and
returns, in file order, exactly the frames of the lines that parse
successfully; blank and unparsable lines are skipped. -/
theorem C8_amended (parse : Str → Option JValue) (lines : List Str)
    (h : lines.all (goodLine parse) = true) :
    load_all parse lines = some (readAllSpec parse lines) := by
  induction lines with
  | nil => rfl
  | cons raw rest ih =>
    rw [List.all_cons, Bool.and_eq_true] at h
    obtain ⟨hhead, hrest⟩ := h
    unfold goodLine at hhead
    unfold load_all
    by_cases hempty : (pyStrip raw).isEmpty
    · rw [if_pos hempty, readAllSpec_cons_skip parse raw rest (by rw [if_pos hempty])]
      exact ih hrest
    · rw [if_neg hempty]
      cases hp : parse (pyStrip raw) with
      | none =>
        rw [readAllSpec_cons_skip parse raw rest (by rw [if_neg hempty, hp]; rfl)]
        exact ih hrest
      | some v =>
        rw [hp] at hhead
        cases v with
        | jobj d =>
          rw [readAllSpec_cons_frame parse raw rest (RecapFrame.from_dict d)
            (by rw [if_neg hempty, hp]; rfl)]
          rw [ih hrest]
          rfl
        | jstr s => exact absurd hhead (by simp)
        | jarr xs => exact absurd hhead (by simp)

/-- Witness for C8 on a concrete two-line file: the first line parses to an
object, the second is not valid JSON and is skipped. -/
theorem C8_witness :
    c8GoodLines.all (goodLine c8GoodParse) = true ∧
      load_all c8GoodParse c8GoodLines = some (readAllSpec c8GoodParse c8GoodLines) :=
  ⟨by decide, C8_amended c8GoodParse c8GoodLines (by decide)⟩

/-! ### Project-name extraction priority (claim C9) -/

/-- The scan of `projNameOfLines` is line-major: it returns the name
produced by the first line yielding one, with all earlier lines yielding
nothing. -/
theorem projNameOfLines_spec (lines : List Str) (name : Str)
    (h : projNameOfLines lines = some name) :
    (name = [] ∧ ∀ l ∈ lines, projLineResult l = some none) ∨
    ∃ pre l post, lines = pre ++ l :: post ∧
      projLineResult l = some (some name) ∧
      ∀ l' ∈ pre, projLineResult l' = some none := by
  induction lines with
  | nil =>
    unfold projNameOfLines at h
    injection h with h'
    exact Or.inl ⟨h'.symm, by simp⟩
  | cons l rest ih =>
    unfold projNameOfLines at h
    cases hr : projLineResult l with
    | none => rw [hr] at h; simp at h
    | some o =>
      rw [hr] at h
      cases o with
      | some n =>
        simp only at h
        injection h with h'
        refine Or.inr ⟨[], l, rest, by simp, ?_, by simp⟩
        rw [hr, h']
      | none =>
        simp only at h
        rcases ih h with ⟨hn, hall⟩ | ⟨pre, l', post, heq, hl', hpre⟩
        · refine Or.inl ⟨hn, ?_⟩
          intro x hx
          rcases List.mem_cons.mp hx with hxl | hxr
          · rw [hxl]; exact hr
          · exact hall x hxr
        · refine Or.inr ⟨l :: pre, l', post, by rw [heq]; rfl, hl', ?_⟩
          intro x hx
          rcases List.mem_cons.mp hx with hxl | hxr
          · rw [hxl]; exact hr
          · exact hpre x hxr

/-- C9 counterexample: on the user text
`"project name: Alpha\nproject: Beta"` the code takes `"Alpha"` (lines are
scanned in order, so a `"project name:"` hit on an earlier line wins), while
the claim's whole-text marker priority demands `"Beta"`. -/
theorem C9_counterexample :
    (extract_project_state c9User []).map ProjectState.project_name
      ≠ some (c9ClaimProjectName c9User []) := by decide

/-- C9 amended: whenever `_extract_project_state` returns (does not raise),
`projectName` comes from a line-major scan: either no line yields a name and
it is empty, or it is the name of the first line yielding one — where a
line yields per `projLineResult`, which tries `"project:"` before
`"project name:"` within that single line, matching case-insensitively but
splitting the original line. -/
theorem C9_amended (u a : Str) (ps : ProjectState)
    (h : extract_project_state u a = some ps) :
    (ps.project_name = [] ∧
      ∀ l ∈ pySplitlines (u ++ '\n' :: a), projLineResult l = some none) ∨
    ∃ pre l post, pySplitlines (u ++ '\n' :: a) = pre ++ l :: post ∧
      projLineResult l = some (some ps.project_name) ∧
      ∀ l' ∈ pre, projLineResult l' = some none := by
  unfold extract_project_state at h
  cases hn : projNameOfLines (pySplitlines (u ++ '\n' :: a)) with
  | none => rw [hn] at h; simp at h
  | some name =>
    rw [hn] at h
    simp only [Option.map_some'] at h
    injection h with h'
    have hpn : ps.project_name = name := by rw [← h']
    rw [hpn]
    exact projNameOfLines_spec _ _ hn

/-- Witness for C9 at the counterexample input (the extraction succeeds and
the amended line-major description holds of it). -/
theorem C9_witness :
    extract_project_state c9User [] = some c9ExtractedPS ∧
    ((c9ExtractedPS.project_name = [] ∧
        ∀ l ∈ pySplitlines (c9User ++ '\n' :: ([] : Str)), projLineResult l = some none) ∨
      ∃ pre l post, pySplitlines (c9User ++ '\n' :: ([] : Str)) = pre ++ l :: post ∧
        projLineResult l = some (some c9ExtractedPS.project_name) ∧
        ∀ l' ∈ pre, projLineResult l' = some none) :=
  ⟨by rfl, C9_amended c9User [] c9ExtractedPS (by rfl)⟩

/-! ### Two-interaction load scenario (claim C1) -/

/-- C1 (code bug): in the spec's scenario — two saves where the second
user text contains `"project: Orion"` and `"currently migrating the
database"`, then a load with the empty query — the bundle's
`projectSummary` is the *first* (older) frame's summary, not one derived
from the second frame: `retrieve_relevant_frames` returns frames sorted by
descending score (newest first on an empty query), and the aggregation
loop's "last non-empty wins" then lets the oldest frame override, contrary
to its own comment "prefer the latest non-empty project_state.summary".
The `activeWorkstream` half of the claim does hold here.  This theorem
evaluates the pipeline at the failing input. -/
theorem C1_scenario_code_bug :
    save_context orionTs1 orionUser1 orionAssistant1 = some orionFrame1 ∧
    save_context orionTs2 orionUser2 orionAssistant2 = some orionFrame2 ∧
    pyContains orionUser2 "project: Orion".data = true ∧
    pyContains orionUser2 "currently migrating the database".data = true ∧
    orionFrame2.project_state.summary = orionUser2 ∧
    orionBundle.project_summary = orionUser1 ∧
    orionBundle.project_summary ≠ orionFrame2.project_state.summary ∧
    orionBundle.active_workstream = orionUser2 :=
  ⟨rfl, rfl, by decide, by decide, by decide, by decide, by decide, by decide⟩

/-! ### Aggregation order (claim C2) -/

/-- C2 (code bug): on an empty-query load over a two-frame store the
returned `supportingFrames` are ordered newest first (descending
timestamp), not oldest first as claimed, because selection sorts by
descending score and recency weights grow with the index; aggregation then
iterates that same newest-first order, so the chronologically *earliest*
contributing frame wins the single-valued fields (`projectSummary` below
ends up being the older frame's summary).  The code's own comments ("Use
the most recent frame as the primary anchor", "prefer the latest non-empty
project_state.summary") assume the claimed oldest-first order, so the code
contradicts its own documentation.  This theorem evaluates the pipeline at
the failing input. -/
theorem C2_order_code_bug :
    orionBundle.supporting_frames.map RecapFrame.timestamp = [orionTs2, orionTs1] ∧
    lexLt orionTs1 orionTs2 = true ∧
    orionFrame1.project_state.summary ≠ [] ∧
    orionFrame2.project_state.summary ≠ [] ∧
    orionBundle.project_summary = orionFrame1.project_state.summary :=
  ⟨by decide, by decide, by decide, by decide, by decide⟩

/-! ### Keyword extraction (claim C5) -/

theorem dedupSeen_sublist {α : Type} [DecidableEq α] :
    ∀ (l seen : List α), List.Sublist (dedupSeen l seen) l := by
  intro l
  induction l with
  | nil => intro seen; simp [dedupSeen]
  | cons x xs ih =>
    intro seen
    unfold dedupSeen
    split
    · exact (ih seen).cons x
    · exact (ih (x :: seen)).cons₂ x

theorem mem_dedupSeen {α : Type} [DecidableEq α] :
    ∀ (l seen : List α) (x : α), x ∈ dedupSeen l seen ↔ x ∈ l ∧ x ∉ seen := by
  intro l
  induction l with
  | nil => intro seen x; simp [dedupSeen]
  | cons a xs ih =>
    intro seen x
    unfold dedupSeen
    split
    · rename_i ha
      rw [ih seen x]
      constructor
      · rintro ⟨hxs, hns⟩; exact ⟨List.mem_cons_of_mem a hxs, hns⟩
      · rintro ⟨hx, hns⟩
        rcases List.mem_cons.mp hx with hxa | hxs
        · exact absurd (hxa ▸ ha) hns
        · exact ⟨hxs, hns⟩
    · rename_i ha
      constructor
      · intro hx
        rcases List.mem_cons.mp hx with hxa | hxs
        · exact ⟨hxa ▸ List.mem_cons_self a xs, hxa ▸ ha⟩
        · rw [ih (a :: seen) x] at hxs
          exact ⟨List.mem_cons_of_mem a hxs.1,
            fun hs => hxs.2 (List.mem_cons_of_mem a hs)⟩
      · rintro ⟨hx, hns⟩
        rcases List.mem_cons.mp hx with hxa | hxs
        · exact hxa ▸ List.mem_cons_self a _
        · by_cases hxa : x = a
          · exact hxa ▸ List.mem_cons_self a _
          · refine List.mem_cons_of_mem a ((ih (a :: seen) x).mpr ⟨hxs, ?_⟩)
            intro hmem
            rcases List.mem_cons.mp hmem with h1 | h2
            · exact hxa h1
            · exact hns h2

theorem nodup_dedupSeen {α : Type} [DecidableEq α] :
    ∀ (l seen : List α), (dedupSeen l seen).Nodup := by
  intro l
  induction l with
  | nil => intro seen; simp [dedupSeen]
  | cons a xs ih =>
    intro seen
    unfold dedupSeen
    split
    · exact ih seen
    · refine List.Nodup.cons ?_ (ih (a :: seen))
      intro hmem
      exact ((mem_dedupSeen xs (a :: seen) a).mp hmem).2 (List.mem_cons_self a seen)

theorem dedupFirst_sublist {α : Type} [DecidableEq α] (l : List α) :
    List.Sublist (dedupFirst l) l := dedupSeen_sublist l []

theorem mem_dedupFirst {α : Type} [DecidableEq α] (l : List α) (x : α) :
    x ∈ dedupFirst l ↔ x ∈ l := by
  rw [dedupFirst, mem_dedupSeen]
  simp

theorem nodup_dedupFirst {α : Type} [DecidableEq α] (l : List α) :
    (dedupFirst l).Nodup := nodup_dedupSeen l []

theorem dedupFirst_perm {α : Type} [DecidableEq α] {l l' : List α} (h : List.Perm l l') :
    List.Perm (dedupFirst l) (dedupFirst l') := by
  rw [List.perm_ext_iff_of_nodup (nodup_dedupFirst l) (nodup_dedupFirst l')]
  intro a
  rw [mem_dedupFirst, mem_dedupFirst]
  exact h.mem_iff

theorem lexLt_irrefl : ∀ a : Str, lexLt a a = false := by
  intro a
  induction a with
  | nil => rfl
  | cons c cs ih => simp [lexLt, lt_irrefl, ih]

theorem lexLt_cons_iff {a b : Char} {as bs : Str} :
    lexLt (a :: as) (b :: bs) = true ↔ a < b ∨ (a = b ∧ lexLt as bs = true) := by
  by_cases h1 : a < b
  · simp [lexLt, h1]
  · by_cases h2 : b < a
    · have hne : a ≠ b := fun h => absurd (h ▸ h2) (lt_irrefl a)
      simp [lexLt, h1, h2, hne]
    · have heq : a = b := le_antisymm (not_lt.mp h2) (not_lt.mp h1)
      simp [lexLt, h1, h2, heq]

theorem lexLt_trans : ∀ a b c : Str, lexLt a b = true → lexLt b c = true → lexLt a c = true := by
  intro a
  induction a with
  | nil =>
    intro b c h1 h2
    cases b with
    | nil => exact absurd h1 (by simp [lexLt])
    | cons y ys =>
      cases c with
      | nil => exact absurd h2 (by simp [lexLt])
      | cons z zs => rfl
  | cons x xs ih =>
    intro b c h1 h2
    cases b with
    | nil => exact absurd h1 (by simp [lexLt])
    | cons y ys =>
      cases c with
      | nil => exact absurd h2 (by simp [lexLt])
      | cons z zs =>
        rcases lexLt_cons_iff.mp h1 with hxy | ⟨rfl, hxs⟩
        · rcases lexLt_cons_iff.mp h2 with hyz | ⟨rfl, _⟩
          · exact lexLt_cons_iff.mpr (Or.inl (lt_trans hxy hyz))
          · exact lexLt_cons_iff.mpr (Or.inl hxy)
        · rcases lexLt_cons_iff.mp h2 with hyz | ⟨rfl, hys⟩
          · exact lexLt_cons_iff.mpr (Or.inl hyz)
          · exact lexLt_cons_iff.mpr (Or.inr ⟨rfl, ih ys zs hxs hys⟩)

theorem lexLt_connex : ∀ a b : Str, a ≠ b → lexLt a b = true ∨ lexLt b a = true := by
  intro a
  induction a with
  | nil =>
    intro b hne
    cases b with
    | nil => exact absurd rfl hne
    | cons y ys => exact Or.inl rfl
  | cons x xs ih =>
    intro b hne
    cases b with
    | nil => exact Or.inr rfl
    | cons y ys =>
      rcases lt_trichotomy x y with hxy | hxy | hxy
      · exact Or.inl (lexLt_cons_iff.mpr (Or.inl hxy))
      · subst hxy
        have hne' : xs ≠ ys := fun h => hne (by rw [h])
        rcases ih ys hne' with h | h
        · exact Or.inl (lexLt_cons_iff.mpr (Or.inr ⟨rfl, h⟩))
        · exact Or.inr (lexLt_cons_iff.mpr (Or.inr ⟨rfl, h⟩))
      · exact Or.inr (lexLt_cons_iff.mpr (Or.inl hxy))

theorem lexLt_asymm {a b : Str} (h : lexLt a b = true) : lexLt b a = false := by
  by_contra hc
  have h2 : lexLt b a = true := by
    cases hx : lexLt b a
    · exact absurd hx hc
    · rfl
  have := lexLt_trans a b a h h2
  rw [lexLt_irrefl] at this
  exact absurd this (by simp)

theorem lexLe_total (a b : Str) : lexLe a b = true ∨ lexLe b a = true := by
  unfold lexLe
  cases h : lexLt b a
  · simp
  · right
    rw [lexLt_asymm h]
    rfl

theorem lexLe_antisymm {a b : Str} (h1 : lexLe a b = true) (h2 : lexLe b a = true) :
    a = b := by
  unfold lexLe at h1 h2
  by_contra hne
  rcases lexLt_connex a b hne with h | h
  · rw [h] at h2; exact absurd h2 (by simp)
  · rw [h] at h1; exact absurd h1 (by simp)

theorem lexLe_trans {a b c : Str} (h1 : lexLe a b = true) (h2 : lexLe b c = true) :
    lexLe a c = true := by
  unfold lexLe at h1 h2 ⊢
  by_contra hc
  have hca : lexLt c a = true := by
    cases hx : lexLt c a
    · rw [hx] at hc; exact absurd rfl hc
    · rfl
  by_cases hab : a = b
  · subst hab
    rw [hca] at h2; exact absurd h2 (by simp)
  · rcases lexLt_connex a b hab with h | h
    · have := lexLt_trans c a b hca h
      rw [this] at h2; exact absurd h2 (by simp)
    · rw [h] at h1; exact absurd h1 (by simp)

theorem lexLt_of_lexLe_of_ne {a b : Str} (h : lexLe a b = true) (hne : a ≠ b) :
    lexLt a b = true := by
  rcases lexLt_connex a b hne with hl | hl
  · exact hl
  · unfold lexLe at h
    rw [hl] at h
    exact absurd h (by simp)

theorem kwKeyLe_total : ∀ a b : Str × Nat, kwKeyLe a b ∨ kwKeyLe b a := by
  intro a b
  rcases lt_trichotomy a.2 b.2 with h | h | h
  · exact Or.inr (Or.inl h)
  · rcases lexLe_total a.1 b.1 with hl | hl
    · exact Or.inl (Or.inr ⟨h, hl⟩)
    · exact Or.inr (Or.inr ⟨h.symm, hl⟩)
  · exact Or.inl (Or.inl h)

theorem kwKeyLe_trans : ∀ a b c : Str × Nat, kwKeyLe a b → kwKeyLe b c → kwKeyLe a c := by
  rintro a b c (h1 | ⟨h1, h1'⟩) (h2 | ⟨h2, h2'⟩)
  · exact Or.inl (lt_trans h2 h1)
  · exact Or.inl (h2 ▸ h1)
  · exact Or.inl (lt_of_lt_of_le h2 (le_of_eq h1.symm))
  · exact Or.inr ⟨h1.trans h2, lexLe_trans h1' h2'⟩

theorem kwKeyLe_antisymm : ∀ a b : Str × Nat, kwKeyLe a b → kwKeyLe b a → a = b := by
  rintro ⟨ta, ca⟩ ⟨tb, cb⟩ (h1 | ⟨h1, h1'⟩) (h2 | ⟨h2, h2'⟩)
  · exact absurd (lt_trans h1 h2) (lt_irrefl _)
  · exact absurd h1 (by simp only at h2 ⊢; omega)
  · exact absurd h2 (by simp only at h1 ⊢; omega)
  · simp only at h1 h1' h2 h2'
    rw [lexLe_antisymm h1' h2', h1]

/-- The sorted pair list of `extract_keywords` and its properties. -/
theorem extract_keywords_eq (texts : List Str) (k : Nat) :
    extract_keywords texts k =
      if (nonStopTokens texts).isEmpty then []
      else ((((dedupFirst (nonStopTokens texts)).map
          fun t => (t, (nonStopTokens texts).count t)).insertionSort kwKeyLe).take k).map
        Prod.fst := rfl

theorem mem_keywordItems {texts : List Str} {p : Str × Nat}
    (hp : p ∈ ((dedupFirst (nonStopTokens texts)).map
      fun t => (t, (nonStopTokens texts).count t)).insertionSort kwKeyLe) :
    p.1 ∈ nonStopTokens texts ∧ p.2 = (nonStopTokens texts).count p.1 := by
  have hmem := (List.perm_insertionSort kwKeyLe _).mem_iff.mp hp
  rcases List.mem_map.mp hmem with ⟨t, ht, rfl⟩
  exact ⟨(mem_dedupFirst _ t).mp ht, rfl⟩

theorem keywordSorted_fst_nodup (texts : List Str) :
    (((((dedupFirst (nonStopTokens texts)).map
      fun t => (t, (nonStopTokens texts).count t)).insertionSort kwKeyLe).map
        Prod.fst)).Nodup := by
  have hperm : List.Perm
      (((((dedupFirst (nonStopTokens texts)).map
        fun t => (t, (nonStopTokens texts).count t)).insertionSort kwKeyLe).map Prod.fst))
      (((dedupFirst (nonStopTokens texts)).map
        fun t => (t, (nonStopTokens texts).count t)).map Prod.fst) :=
    (List.perm_insertionSort kwKeyLe _).map Prod.fst
  rw [hperm.nodup_iff, List.map_map]
  have : (Prod.fst ∘ fun t => (t, (nonStopTokens texts).count t)) = id := funext fun t => rfl
  rw [this, List.map_id]
  exact nodup_dedupFirst _


theorem keywordSorted_pairwise (texts : List Str) :
    ((((dedupFirst (nonStopTokens texts)).map
      fun t => (t, (nonStopTokens texts).count t)).insertionSort kwKeyLe)).Pairwise
        (fun p q : Str × Nat => kwOrder (nonStopTokens texts) p.1 q.1) := by
  haveI : IsTotal (Str × Nat) kwKeyLe := ⟨kwKeyLe_total⟩
  haveI : IsTrans (Str × Nat) kwKeyLe := ⟨fun a b c => kwKeyLe_trans a b c⟩
  have hsorted : (((dedupFirst (nonStopTokens texts)).map
      fun t => (t, (nonStopTokens texts).count t)).insertionSort kwKeyLe).Pairwise kwKeyLe :=
    List.sorted_insertionSort kwKeyLe _
  have hne : (((dedupFirst (nonStopTokens texts)).map
      fun t => (t, (nonStopTokens texts).count t)).insertionSort kwKeyLe).Pairwise
        (fun p q : Str × Nat => p.1 ≠ q.1) :=
    List.pairwise_map.mp (keywordSorted_fst_nodup texts)
  have hall := hsorted.and hne
  refine hall.imp_of_mem ?_
  intro p q hp hq ⟨hle, hnefst⟩
  have hcp := (mem_keywordItems hp).2
  have hcq := (mem_keywordItems hq).2
  rcases hle with hlt | ⟨heq, hlex⟩
  · exact Or.inl (by rw [← hcp, ← hcq]; exact hlt)
  · exact Or.inr ⟨by rw [← hcp, ← hcq]; exact heq, lexLt_of_lexLe_of_ne hlex hnefst⟩

theorem extract_keywords_perm (texts texts₂ : List Str) (k : Nat)
    (hperm : List.Perm texts texts₂) :
    extract_keywords texts k = extract_keywords texts₂ k := by
  haveI : IsTotal (Str × Nat) kwKeyLe := ⟨kwKeyLe_total⟩
  haveI : IsTrans (Str × Nat) kwKeyLe := ⟨fun a b c => kwKeyLe_trans a b c⟩
  haveI : IsAntisymm (Str × Nat) kwKeyLe := ⟨fun a b => kwKeyLe_antisymm a b⟩
  have htoks : List.Perm (nonStopTokens texts) (nonStopTokens texts₂) :=
    (hperm.flatMap_right tokenize).filter _
  have hcnt : ∀ t : Str, (nonStopTokens texts).count t = (nonStopTokens texts₂).count t :=
    fun t => htoks.countP_eq _
  have hfun : (fun t => (t, (nonStopTokens texts).count t)) =
      (fun t => (t, (nonStopTokens texts₂).count t)) :=
    funext fun t => by rw [hcnt t]
  have hitems : List.Perm
      ((dedupFirst (nonStopTokens texts)).map fun t => (t, (nonStopTokens texts).count t))
      ((dedupFirst (nonStopTokens texts₂)).map fun t => (t, (nonStopTokens texts₂).count t)) := by
    rw [← hfun]
    exact (dedupFirst_perm htoks).map _
  have hS : ((dedupFirst (nonStopTokens texts)).map
        fun t => (t, (nonStopTokens texts).count t)).insertionSort kwKeyLe =
      ((dedupFirst (nonStopTokens texts₂)).map
        fun t => (t, (nonStopTokens texts₂).count t)).insertionSort kwKeyLe :=
    List.eq_of_perm_of_sorted
      ((List.perm_insertionSort kwKeyLe _).trans
        (hitems.trans (List.perm_insertionSort kwKeyLe _).symm))
      (List.sorted_insertionSort kwKeyLe _) (List.sorted_insertionSort kwKeyLe _)
  have hEmpty : (nonStopTokens texts).isEmpty = (nonStopTokens texts₂).isEmpty := by
    cases he : (nonStopTokens texts).isEmpty
    · cases he₂ : (nonStopTokens texts₂).isEmpty
      · rfl
      · rw [List.isEmpty_iff] at he₂
        have h1 : nonStopTokens texts = [] := (he₂ ▸ htoks).eq_nil
        rw [List.isEmpty_iff.mpr h1] at he
        exact he.symm
    · rw [List.isEmpty_iff] at he
      have h2 : nonStopTokens texts₂ = [] := (he ▸ htoks).symm.eq_nil
      rw [List.isEmpty_iff.mpr h2]
  rw [extract_keywords_eq, extract_keywords_eq, hS, hEmpty]

/-- C5: `extract_keywords` returns at most `maxKeywords` tokens, none of
them a stopword, ordered by strictly descending frequency in the
non-stopword token stream with ties broken by strictly ascending token
order; empty when no non-stopword token remains; and invariant under any
permutation of the input text sequence. -/
theorem C5_extract_keywords (texts : List Str) (k : Nat) :
    (extract_keywords texts k).length ≤ k ∧
    (∀ t ∈ extract_keywords texts k, t ∉ STOPWORDS) ∧
    (extract_keywords texts k).Pairwise (kwOrder (nonStopTokens texts)) ∧
    (nonStopTokens texts = [] → extract_keywords texts k = []) ∧
    (∀ texts₂, List.Perm texts texts₂ →
      extract_keywords texts k = extract_keywords texts₂ k) := by
  refine ⟨?_, ?_, ?_, ?_, fun texts₂ h => extract_keywords_perm texts texts₂ k h⟩
  · rw [extract_keywords_eq]
    split
    · simp
    · simp only [List.length_map, List.length_take]
      omega
  · intro t ht
    rw [extract_keywords_eq] at ht
    split at ht
    · simp at ht
    · rcases List.mem_map.mp ht with ⟨p, hp, rfl⟩
      have hp' := List.mem_of_mem_take hp
      have hmem := (mem_keywordItems hp').1
      unfold nonStopTokens at hmem
      have hfilter := List.of_mem_filter hmem
      intro hcontra
      simp [hcontra] at hfilter
  · rw [extract_keywords_eq]
    split
    · simp
    · exact List.pairwise_map.mpr
        ((keywordSorted_pairwise texts).sublist (List.take_sublist k _))
  · intro h
    rw [extract_keywords_eq, h]
    rfl

/-- Witness for C5: a concrete permuted pair of text lists on which the
theorem forces equal keyword output. -/
theorem C5_witness :
    List.Perm ["cache pipeline".data, "cache".data] ["cache".data, "cache pipeline".data] ∧
      extract_keywords ["cache pipeline".data, "cache".data] 2 =
        extract_keywords ["cache".data, "cache pipeline".data] 2 :=
  ⟨by decide,
    (C5_extract_keywords ["cache pipeline".data, "cache".data] 2).2.2.2.2
      ["cache".data, "cache pipeline".data] (by decide)⟩

/-! ### Compression: basic lemmas about `joinSp` (claims C3, C4) -/

theorem joinSp_nil : joinSp [] = [] := rfl

theorem joinSp_single (b : Str) : joinSp [b] = b := by
  simp [joinSp, List.intercalate]

theorem joinSp_cons (b : Str) (bs : List Str) (h : bs ≠ []) :
    joinSp (b :: bs) = b ++ ' ' :: joinSp bs := by
  cases bs with
  | nil => exact absurd rfl h
  | cons c cs =>
    simp [joinSp, List.intercalate, List.intersperse]

theorem joinSp_cons_head (c : Char) (w : Str) (bs : List Str) :
    joinSp ((c :: w) :: bs) = c :: joinSp (w :: bs) := by
  cases bs with
  | nil => simp [joinSp_single]
  | cons d ds =>
    rw [joinSp_cons (c :: w) (d :: ds) (by simp), joinSp_cons w (d :: ds) (by simp)]
    simp

theorem joinSp_append (u v : List Str) (hu : u ≠ []) (hv : v ≠ []) :
    joinSp (u ++ v) = joinSp u ++ ' ' :: joinSp v := by
  induction u with
  | nil => exact absurd rfl hu
  | cons b u' ih =>
    cases hu' : u' with
    | nil =>
      subst hu'
      rw [List.singleton_append, joinSp_cons b v hv, joinSp_single]
    | cons c cs =>
      rw [← hu']
      have h1 : u' ++ v ≠ [] := by
        rw [hu']; simp
      rw [List.cons_append, joinSp_cons b (u' ++ v) h1,
        joinSp_cons b u' (by rw [hu']; simp), ih (by rw [hu']; simp)]
      simp

theorem joinSp_ne_nil (bs : List Str) (h : bs ≠ []) (hb : ∀ b ∈ bs, b ≠ []) :
    joinSp bs ≠ [] := by
  cases bs with
  | nil => exact absurd rfl h
  | cons b rest =>
    cases rest with
    | nil => rw [joinSp_single]; exact hb b (by simp)
    | cons c cs =>
      rw [joinSp_cons b _ (by simp)]
      have := hb b (by simp)
      intro hcontra
      rw [List.append_eq_nil] at hcontra
      exact this hcontra.1

/-! ### Compression: the `looseTidy` whitespace discipline -/

theorem isDelim_not_pyspace {c : Char} (h : isDelim c = true) : isPySpace c = false := by
  unfold isDelim at h
  simp only [Bool.or_eq_true, decide_eq_true_eq] at h
  rcases h with (h | h) | h <;> subst h <;> decide

theorem looseTidy_cons_cons {c d : Char} {rest : Str} :
    looseTidy (c :: d :: rest) =
      (okChar c && !(c = ' ' && d = ' ') && looseTidy (d :: rest)) := rfl

theorem looseTidy_tail {c : Char} {l : Str} (h : looseTidy (c :: l) = true) :
    looseTidy l = true := by
  cases l with
  | nil => rfl
  | cons d rest =>
    rw [looseTidy_cons_cons] at h
    exact (Bool.and_eq_true_iff.mp h).2

theorem looseTidy_head_ok {c : Char} {l : Str} (h : looseTidy (c :: l) = true) :
    okChar c = true := by
  cases l with
  | nil => exact h
  | cons d rest =>
    rw [looseTidy_cons_cons] at h
    exact (Bool.and_eq_true_iff.mp (Bool.and_eq_true_iff.mp h).1).1

theorem looseTidy_of_append_right :
    ∀ (x y : Str), looseTidy (x ++ y) = true → looseTidy y = true := by
  intro x
  induction x with
  | nil => intro y h; exact h
  | cons c x' ih =>
    intro y h
    exact ih y (looseTidy_tail h)

theorem looseTidy_of_append_left :
    ∀ (x y : Str), looseTidy (x ++ y) = true → looseTidy x = true := by
  intro x
  induction x with
  | nil => intro y _; rfl
  | cons c x' ih =>
    intro y h
    cases hx : x' with
    | nil =>
      subst hx
      show okChar c = true
      exact looseTidy_head_ok h
    | cons d x'' =>
      subst hx
      rw [List.cons_append] at h
      have hcd : okChar c = true ∧ (!(c = ' ' && d = ' ')) = true := by
        rw [List.cons_append, looseTidy_cons_cons] at h
        have h1 := Bool.and_eq_true_iff.mp h
        exact ⟨(Bool.and_eq_true_iff.mp h1.1).1, (Bool.and_eq_true_iff.mp h1.1).2⟩
      rw [looseTidy_cons_cons]
      rw [Bool.and_eq_true_iff, Bool.and_eq_true_iff]
      exact ⟨⟨hcd.1, hcd.2⟩, ih y (looseTidy_tail h)⟩

theorem looseTidy_take {l : Str} (n : Nat) (h : looseTidy l = true) :
    looseTidy (l.take n) = true :=
  looseTidy_of_append_left _ (l.drop n) (by rw [List.take_append_drop]; exact h)

theorem looseTidy_drop {l : Str} (n : Nat) (h : looseTidy l = true) :
    looseTidy (l.drop n) = true :=
  looseTidy_of_append_right (l.take n) _ (by rw [List.take_append_drop]; exact h)

theorem lstripPy_eq_self {l : Str} (h : headOK l = true) : lstripPy l = l := by
  cases l with
  | nil => rfl
  | cons c cs =>
    unfold headOK at h
    simp only [Bool.not_eq_eq_eq_not, Bool.not_true] at h
    exact List.dropWhile_cons_of_neg (by simp [h])

theorem rstripPy_eq_self {l : Str} (h : lastOK l = true) : rstripPy l = l := by
  rcases l.eq_nil_or_concat with rfl | ⟨ys, c, rfl⟩
  · rfl
  · rw [List.concat_eq_append] at *
    unfold lastOK at h
    rw [List.getLast?_concat] at h
    simp only [Bool.not_eq_eq_eq_not, Bool.not_true] at h
    unfold rstripPy
    rw [List.reverse_append, List.reverse_cons, List.reverse_nil, List.nil_append,
      List.singleton_append, List.dropWhile_cons_of_neg (by simp [h])]
    rw [List.reverse_cons, List.reverse_reverse]

theorem pyStrip_eq_self {l : Str} (h : Tidy l) : pyStrip l = l := by
  rw [pyStrip, lstripPy_eq_self h.2.1, rstripPy_eq_self h.2.2]

theorem lstripPy_append (xs ys : Str) :
    lstripPy (xs ++ ys) =
      if (lstripPy xs).isEmpty then lstripPy ys else lstripPy xs ++ ys :=
  List.dropWhile_append

theorem pyStrip_append_singleton {c : Char} (xs : Str) (h : isPySpace c = false) :
    pyStrip (xs ++ [c]) = lstripPy xs ++ [c] := by
  unfold pyStrip
  rw [lstripPy_append]
  have hc : lstripPy [c] = [c] := List.dropWhile_cons_of_neg (by simp [h])
  have key : lstripPy (xs) ++ [c] = if (lstripPy xs).isEmpty then lstripPy [c] else lstripPy xs ++ [c] := by
    split
    · rename_i he
      rw [List.isEmpty_iff] at he
      rw [he, hc, List.nil_append]
    · rfl
  rw [← key]
  exact rstripPy_eq_self (by unfold lastOK; rw [List.getLast?_concat]; simp [h])

theorem rstripPy_front (l : Str) : ∃ t, l = rstripPy l ++ t := by
  refine ⟨(l.reverse.takeWhile isPySpace).reverse, ?_⟩
  unfold rstripPy
  rw [← List.reverse_append, List.takeWhile_append_dropWhile, List.reverse_reverse]

theorem lstripPy_suffix (l : Str) : ∃ t, l = t ++ lstripPy l :=
  ⟨l.takeWhile isPySpace, (List.takeWhile_append_dropWhile _ _).symm⟩

theorem headOK_of_front {x y : Str} (h : headOK y = true) (hp : ∃ t, y = x ++ t) :
    headOK x = true := by
  rcases hp with ⟨t, rfl⟩
  cases x with
  | nil => rfl
  | cons c cs => exact h

theorem headOK_lstripPy (l : Str) : headOK (lstripPy l) = true := by
  have h := List.head?_dropWhile_not isPySpace l
  unfold lstripPy headOK
  cases hq : l.dropWhile isPySpace with
  | nil => rfl
  | cons c cs =>
    rw [hq] at h
    simp only [List.head?_cons] at h
    simp [h]

theorem headOK_pyStrip (l : Str) : headOK (pyStrip l) = true :=
  headOK_of_front (headOK_lstripPy l) (rstripPy_front (lstripPy l))

theorem lastOK_rstripPy (l : Str) : lastOK (rstripPy l) = true := by
  have h := List.head?_dropWhile_not isPySpace l.reverse
  unfold rstripPy lastOK
  rw [List.getLast?_reverse]
  cases hq : l.reverse.dropWhile isPySpace with
  | nil => rfl
  | cons c cs =>
    rw [hq] at h
    simp only [List.head?_cons] at h
    simp [h]

theorem lastOK_pyStrip (l : Str) : lastOK (pyStrip l) = true :=
  lastOK_rstripPy (lstripPy l)

theorem looseTidy_pyStrip {l : Str} (h : looseTidy l = true) :
    looseTidy (pyStrip l) = true := by
  have h1 : looseTidy (lstripPy l) = true := by
    rcases lstripPy_suffix l with ⟨t, heq⟩
    exact looseTidy_of_append_right t _ (by rw [← heq]; exact h)
  rcases rstripPy_front (lstripPy l) with ⟨t, heq⟩
  unfold pyStrip
  exact looseTidy_of_append_left _ t (by rw [← heq]; exact h1)

theorem tidy_pyStrip {l : Str} (h : looseTidy l = true) : Tidy (pyStrip l) :=
  ⟨looseTidy_pyStrip h, headOK_pyStrip l, lastOK_pyStrip l⟩

theorem mem_pyStrip {l : Str} {a : Char} (h : a ∈ pyStrip l) : a ∈ l := by
  unfold pyStrip at h
  rcases rstripPy_front (lstripPy l) with ⟨t, heq⟩
  have h1 : a ∈ lstripPy l := by rw [heq]; exact List.mem_append_left t h
  rcases lstripPy_suffix l with ⟨u, hequ⟩
  rw [hequ]
  exact List.mem_append_right u h1

theorem delimFree_pyStrip {l : Str} (h : delimFree l) : delimFree (pyStrip l) :=
  fun c hc => h c (mem_pyStrip hc)

theorem lastOK_of_append_space :
    ∀ (p r : Str), looseTidy (p ++ ' ' :: r) = true → p ≠ [] → lastOK p = true := by
  intro p
  induction p with
  | nil => intro r _ h; exact absurd rfl h
  | cons c p' ih =>
    intro r h _
    cases hp : p' with
    | nil =>
      subst hp
      rw [List.singleton_append, looseTidy_cons_cons] at h
      have h1 := Bool.and_eq_true_iff.mp h
      have hok := (Bool.and_eq_true_iff.mp h1.1).1
      have hpair := (Bool.and_eq_true_iff.mp h1.1).2
      have hcne : ¬(c = ' ') := by
        intro hceq
        subst hceq
        simp at hpair
      unfold lastOK
      simp only [List.getLast?_singleton]
      unfold okChar at hok
      simp only [Bool.or_eq_true, Bool.not_eq_eq_eq_not, Bool.not_true,
        decide_eq_true_eq] at hok
      rcases hok with hok | hok
      · simp [hok]
      · exact absurd hok hcne
    | cons d p'' =>
      subst hp
      rw [List.cons_append] at h
      have hih := ih r (looseTidy_tail h) (by simp)
      unfold lastOK at hih ⊢
      rwa [List.getLast?_cons_cons]

theorem pyStrip_space_cons (s : Str) : pyStrip (' ' :: s) = pyStrip s := by
  unfold pyStrip lstripPy
  rw [List.dropWhile_cons_of_pos (by decide)]

theorem pyStrip_ne_nil {l : Str} (hne : l ≠ []) (hlast : lastOK l = true) :
    pyStrip l ≠ [] := by
  rcases l.eq_nil_or_concat with rfl | ⟨ys, c, rfl⟩
  · exact absurd rfl hne
  · rw [List.concat_eq_append] at *
    unfold lastOK at hlast
    rw [List.getLast?_concat] at hlast
    simp only [Bool.not_eq_eq_eq_not, Bool.not_true] at hlast
    rw [pyStrip_append_singleton ys hlast]
    simp

/-! ### Compression: word splitting -/

theorem wordsByAux_nil (keep : Char → Bool) (acc : Str) :
    wordsByAux keep [] acc = if acc.isEmpty then [] else [acc.reverse] := rfl

theorem wordsByAux_cons_pos {keep : Char → Bool} {c : Char} (cs acc : Str)
    (hk : keep c = true) :
    wordsByAux keep (c :: cs) acc = wordsByAux keep cs (c :: acc) := by
  simp [wordsByAux, hk]

theorem wordsByAux_cons_neg_nil {keep : Char → Bool} {c : Char} (cs : Str)
    (hk : keep c = false) :
    wordsByAux keep (c :: cs) [] = wordsByAux keep cs [] := by
  simp [wordsByAux, hk]

theorem wordsByAux_cons_neg {keep : Char → Bool} {c : Char} (cs acc : Str)
    (hk : keep c = false) (h : acc ≠ []) :
    wordsByAux keep (c :: cs) acc = acc.reverse :: wordsByAux keep cs [] := by
  simp [wordsByAux, hk, h]

theorem wordsByAux_flush (keep : Char → Bool) :
    ∀ (l acc : Str), acc ≠ [] →
      wordsByAux keep l acc =
        (acc.reverse ++ l.takeWhile keep) :: wordsByAux keep (l.dropWhile keep) [] := by
  intro l
  induction l with
  | nil =>
    intro acc h
    rw [wordsByAux_nil, if_neg (by simpa using h)]
    rw [show List.takeWhile keep [] = [] from rfl, show List.dropWhile keep [] = [] from rfl,
      wordsByAux_nil]
    simp
  | cons c cs ih =>
    intro acc h
    by_cases hk : keep c
    · rw [wordsByAux_cons_pos cs acc hk, ih (c :: acc) (by simp),
        List.takeWhile_cons_of_pos hk, List.dropWhile_cons_of_pos hk]
      simp
    · rw [wordsByAux_cons_neg cs acc (by simpa using hk) h,
        List.takeWhile_cons_of_neg hk, List.dropWhile_cons_of_neg hk,
        wordsByAux_cons_neg_nil cs (by simpa using hk)]
      simp

theorem wordsBy_cons (keep : Char → Bool) (c : Char) (cs : Str) :
    wordsBy keep (c :: cs) =
      if keep c then (c :: cs.takeWhile keep) :: wordsBy keep (cs.dropWhile keep)
      else wordsBy keep cs := by
  unfold wordsBy
  by_cases hk : keep c
  · rw [wordsByAux_cons_pos cs [] hk, wordsByAux_flush keep cs [c] (by simp), if_pos hk]
    simp
  · rw [wordsByAux_cons_neg_nil cs (by simpa using hk), if_neg hk]

theorem runsOK_wordsByAux (keep : Char → Bool) :
    ∀ (l acc : Str), (∀ a ∈ acc, keep a = true) →
      runsOK keep (wordsByAux keep l acc) := by
  intro l
  induction l with
  | nil =>
    intro acc hacc
    rw [wordsByAux_nil]
    split
    · intro w hw; simp at hw
    · rename_i hne
      intro w hw
      simp only [List.mem_singleton] at hw
      subst hw
      refine ⟨by simpa using hne, fun ch hch => hacc ch (List.mem_reverse.mp hch)⟩
  | cons c cs ih =>
    intro acc hacc
    by_cases hk : keep c
    · rw [wordsByAux_cons_pos cs acc hk]
      refine ih (c :: acc) ?_
      intro a ha
      rcases List.mem_cons.mp ha with rfl | ha
      · exact hk
      · exact hacc a ha
    · by_cases hacc0 : acc = []
      · subst hacc0
        rw [wordsByAux_cons_neg_nil cs (by simpa using hk)]
        exact ih [] (by simp)
      · rw [wordsByAux_cons_neg cs acc (by simpa using hk) hacc0]
        intro w hw
        rcases List.mem_cons.mp hw with rfl | hw
        · exact ⟨by simpa using hacc0, fun ch hch => hacc ch (List.mem_reverse.mp hch)⟩
        · exact ih [] (by simp) w hw

theorem runsOK_pyWords (s : Str) : runsOK (fun c => !isPySpace c) (pyWords s) :=
  runsOK_wordsByAux _ s [] (by simp)

/-! ### Compression: producing tidy strings -/

theorem tidy_nil : Tidy [] := ⟨rfl, rfl, rfl⟩

theorem looseTidy_cons_intro {c : Char} {l : Str} (hok : okChar c = true)
    (hpair : l.head? = some ' ' → c ≠ ' ') (ht : looseTidy l = true) :
    looseTidy (c :: l) = true := by
  cases l with
  | nil => exact hok
  | cons d rest =>
    rw [looseTidy_cons_cons, Bool.and_eq_true_iff, Bool.and_eq_true_iff]
    refine ⟨⟨hok, ?_⟩, ht⟩
    by_cases hd : d = ' '
    · subst hd
      have := hpair rfl
      simp [this]
    · simp [hd]

theorem headOK_ne_space {c : Char} {l : Str} (h : headOK (c :: l) = true) : c ≠ ' ' := by
  unfold headOK at h
  intro hc
  subst hc
  simp only [Bool.not_eq_eq_eq_not, Bool.not_true] at h
  exact absurd h (by decide)

theorem tidy_of_no_space {w : Str} (h : ∀ c ∈ w, isPySpace c = false) : Tidy w := by
  refine ⟨?_, ?_, ?_⟩
  · induction w with
    | nil => rfl
    | cons c cs ih =>
      refine looseTidy_cons_intro ?_ ?_ (ih fun a ha => h a (List.mem_cons_of_mem c ha))
      · unfold okChar
        simp [h c (List.mem_cons_self c cs)]
      · intro _ hc
        subst hc
        have hsp := h ' ' (List.mem_cons_self _ _)
        exact absurd hsp (by decide)
  · unfold headOK
    cases w with
    | nil => rfl
    | cons c cs => simp [h c (List.mem_cons_self c cs)]
  · unfold lastOK
    cases hq : w.getLast? with
    | none => rfl
    | some c =>
      rcases List.getLast?_eq_some_iff.mp hq with ⟨ys, rfl⟩
      simp [h c (by simp)]

theorem headOK_append {x : Str} (t : Str) (h : x ≠ []) :
    headOK (x ++ t) = headOK x := by
  cases x with
  | nil => exact absurd rfl h
  | cons c cs => rfl

theorem lastOK_append {x y : Str} (h : y ≠ []) : lastOK (x ++ y) = lastOK y := by
  unfold lastOK
  rw [List.getLast?_append]
  cases hq : y.getLast? with
  | none =>
    rw [List.getLast?_eq_none_iff] at hq
    exact absurd hq h
  | some c => rfl

theorem lastOK_space_cons {z : Str} (h : lastOK z = true) (hz : z ≠ []) :
    lastOK (' ' :: z) = true := by
  cases z with
  | nil => exact absurd rfl hz
  | cons a as =>
    unfold lastOK at h ⊢
    rwa [List.getLast?_cons_cons]

theorem looseTidy_append_space {x y : Str} (hx : looseTidy x = true)
    (hy : looseTidy y = true) (hlx : lastOK x = true) (hhy : headOK y = true)
    (hxne : x ≠ []) (hyne : y ≠ []) : looseTidy (x ++ ' ' :: y) = true := by
  have hsy : looseTidy (' ' :: y) = true := by
    refine looseTidy_cons_intro (by decide) ?_ hy
    intro hhead hc
    cases y with
    | nil => exact absurd rfl hyne
    | cons d rest =>
      simp only [List.head?_cons, Option.some.injEq] at hhead
      exact (headOK_ne_space hhy) hhead
  clear hy hhy hyne
  induction x with
  | nil => exact absurd rfl hxne
  | cons c x' ih =>
    cases x' with
    | nil =>
      rw [List.singleton_append]
      refine looseTidy_cons_intro (looseTidy_head_ok hx) ?_ hsy
      intro _ hc
      subst hc
      unfold lastOK at hlx
      simp only [List.getLast?_singleton, Bool.not_eq_eq_eq_not, Bool.not_true] at hlx
      exact absurd hlx (by decide)
    | cons d x'' =>
      rw [List.cons_append]
      have hlx' : lastOK (d :: x'') = true := by
        unfold lastOK at hlx ⊢
        rwa [List.getLast?_cons_cons] at hlx
      refine looseTidy_cons_intro (looseTidy_head_ok hx) ?_
        (ih (looseTidy_tail hx) hlx' (by simp))
      intro hhead hc
      subst hc
      simp only [List.cons_append, List.head?_cons, Option.some.injEq] at hhead
      rw [looseTidy_cons_cons] at hx
      have hpair := (Bool.and_eq_true_iff.mp (Bool.and_eq_true_iff.mp hx).1).2
      rw [hhead] at hpair
      simp at hpair

theorem tidy_joinSp_blocks :
    ∀ bs : List Str, bs ≠ [] → (∀ b ∈ bs, b ≠ [] ∧ Tidy b) → Tidy (joinSp bs) := by
  intro bs
  induction bs with
  | nil => intro h _; exact absurd rfl h
  | cons b rest ih =>
    intro _ hb
    cases hr : rest with
    | nil =>
      rw [joinSp_single]
      exact (hb b (by simp)).2
    | cons c cs =>
      rw [← hr, joinSp_cons b rest (by rw [hr]; simp)]
      have hbne := (hb b (by simp)).1
      have hbtidy := (hb b (by simp)).2
      have hrestne : rest ≠ [] := by rw [hr]; simp
      have hrest : Tidy (joinSp rest) :=
        ih hrestne (fun x hx => hb x (List.mem_cons_of_mem b hx))
      have hrne : joinSp rest ≠ [] :=
        joinSp_ne_nil rest hrestne
          (fun x hx => (hb x (List.mem_cons_of_mem b hx)).1)
      refine ⟨?_, ?_, ?_⟩
      · exact looseTidy_append_space hbtidy.1 hrest.1 hbtidy.2.2 hrest.2.1 hbne hrne
      · rw [headOK_append _ hbne]
        exact hbtidy.2.1
      · rw [lastOK_append (by simp)]
        exact lastOK_space_cons hrest.2.2 hrne

theorem tidy_normalize (s : Str) : Tidy (joinSp (pyWords s)) := by
  cases hw : pyWords s with
  | nil => rw [joinSp_nil]; exact tidy_nil
  | cons w ws =>
    rw [← hw]
    refine tidy_joinSp_blocks (pyWords s) (by rw [hw]; simp) ?_
    intro b hb
    have hok := runsOK_pyWords s b hb
    refine ⟨hok.1, tidy_of_no_space ?_⟩
    intro c hc
    have := hok.2 c hc
    simpa using this

theorem normalize_fix_aux :
    ∀ (n : Nat) (l : Str), l.length ≤ n → Tidy l → joinSp (pyWords l) = l := by
  intro n
  induction n with
  | zero =>
    intro l hl _
    have h0 : l = [] := List.eq_nil_of_length_eq_zero (Nat.le_zero.mp hl)
    subst h0
    rfl
  | succ n ih =>
    intro l hl ht
    cases l with
    | nil => rfl
    | cons c cs =>
      have hc : isPySpace c = false := by
        have h1 := ht.2.1
        unfold headOK at h1
        simpa using h1
      cases cs with
      | nil =>
        have h1 : pyWords [c] = [[c]] := by
          unfold pyWords
          rw [wordsBy_cons, if_pos (by simp [hc])]
          rfl
        rw [h1, joinSp_single]
      | cons d r =>
        by_cases hd : isPySpace d = true
        · have hd' : d = ' ' := by
            have hok := looseTidy_head_ok (looseTidy_tail ht.1)
            unfold okChar at hok
            simp only [hd, Bool.not_true, Bool.false_or, decide_eq_true_eq] at hok
            exact hok
          subst hd'
          have hr : r ≠ [] := by
            intro h0
            subst h0
            have h2 := ht.2.2
            unfold lastOK at h2
            rw [List.getLast?_cons_cons, List.getLast?_singleton] at h2
            exact absurd (by simpa using h2) (by decide)
          obtain ⟨e, r', rfl⟩ : ∃ e r', r = e :: r' := by
            cases r with
            | nil => exact absurd rfl hr
            | cons e r' => exact ⟨e, r', rfl⟩
          have he : isPySpace e = false := by
            have h2 := looseTidy_tail ht.1
            rw [looseTidy_cons_cons] at h2
            have hpair := (Bool.and_eq_true_iff.mp (Bool.and_eq_true_iff.mp h2).1).2
            have hene : e ≠ ' ' := by
              intro h0
              subst h0
              simp at hpair
            have hok := looseTidy_head_ok (Bool.and_eq_true_iff.mp h2).2
            unfold okChar at hok
            simp only [Bool.or_eq_true, Bool.not_eq_eq_eq_not, Bool.not_true,
              decide_eq_true_eq] at hok
            rcases hok with hok | hok
            · exact hok
            · exact absurd hok hene
          have hw : pyWords (c :: ' ' :: e :: r') = [c] :: pyWords (e :: r') := by
            unfold pyWords
            rw [wordsBy_cons, if_pos (by simp [hc]), List.takeWhile_cons_of_neg (by decide),
              List.dropWhile_cons_of_neg (by decide), wordsBy_cons, if_neg (by decide)]
          have hwne : pyWords (e :: r') ≠ [] := by
            unfold pyWords
            rw [wordsBy_cons, if_pos (by simp [he])]
            simp
          have htt : Tidy (e :: r') := by
            refine ⟨looseTidy_tail (looseTidy_tail ht.1), ?_, ?_⟩
            · unfold headOK
              simp [he]
            · have h2 := ht.2.2
              unfold lastOK at h2 ⊢
              rwa [List.getLast?_cons_cons] at h2
          have hlen : (e :: r').length ≤ n := by
            simp only [List.length_cons] at hl ⊢
            omega
          rw [hw, joinSp_cons [c] _ hwne, ih _ hlen htt]
          rfl
        · have hd' : isPySpace d = false := by simpa using hd
          have hw2 : pyWords (d :: r) =
              (d :: r.takeWhile (fun x => !isPySpace x)) ::
                wordsBy (fun x => !isPySpace x) (r.dropWhile (fun x => !isPySpace x)) := by
            unfold pyWords
            rw [wordsBy_cons, if_pos (by simp [hd'])]
          have hw1 : pyWords (c :: d :: r) =
              (c :: d :: r.takeWhile (fun x => !isPySpace x)) ::
                wordsBy (fun x => !isPySpace x) (r.dropWhile (fun x => !isPySpace x)) := by
            unfold pyWords
            rw [wordsBy_cons, if_pos (by simp [hc]),
              List.takeWhile_cons_of_pos (by simp [hd']),
              List.dropWhile_cons_of_pos (by simp [hd'])]
          have htt : Tidy (d :: r) := by
            refine ⟨looseTidy_tail ht.1, ?_, ?_⟩
            · unfold headOK
              simp [hd']
            · have h2 := ht.2.2
              unfold lastOK at h2 ⊢
              rwa [List.getLast?_cons_cons] at h2
          have hlen : (d :: r).length ≤ n := by
            simp only [List.length_cons] at hl ⊢
            omega
          rw [hw1, joinSp_cons_head, ← hw2, ih _ hlen htt]

/-- Whitespace normalisation fixes every tidy string. -/
theorem normalize_fix {l : Str} (h : Tidy l) : joinSp (pyWords l) = l :=
  normalize_fix_aux l.length l le_rfl h

/-! ### Compression: shape of the sentence split -/

theorem splitSentencesAux_nil (cur : Str) :
    splitSentencesAux [] cur = if cur.isEmpty then [] else [pyStrip cur] := rfl

theorem splitSentencesAux_cons_delim {c : Char} (cs cur : Str) (h : isDelim c = true) :
    splitSentencesAux (c :: cs) cur =
      if (pyStrip (cur ++ [c])).isEmpty then splitSentencesAux cs []
      else pyStrip (cur ++ [c]) :: splitSentencesAux cs [] := by
  simp [splitSentencesAux, h]

theorem splitSentencesAux_cons_nondelim {c : Char} (cs cur : Str) (h : isDelim c = false) :
    splitSentencesAux (c :: cs) cur = splitSentencesAux cs (cur ++ [c]) := by
  simp [splitSentencesAux, h]

theorem delimFree_append {x y : Str} (hx : delimFree x) (hy : delimFree y) :
    delimFree (x ++ y) := by
  intro c hc
  rcases List.mem_append.mp hc with h | h
  · exact hx c h
  · exact hy c h

theorem delimFree_nil : delimFree [] := by
  intro c hc
  simp at hc

theorem delimFree_singleton {c : Char} (h : isDelim c = false) : delimFree [c] := by
  intro a ha
  simp only [List.mem_singleton] at ha
  subst ha
  exact h

theorem delimFree_sub {x y : Str} (hy : delimFree y) (hsub : ∀ a ∈ x, a ∈ y) :
    delimFree x := fun c hc => hy c (hsub c hc)

theorem lastOK_tail_of_cons {c : Char} {cs : Str} (h : lastOK (c :: cs) = true) :
    lastOK cs = true := by
  cases cs with
  | nil => rfl
  | cons d r =>
    unfold lastOK at h ⊢
    rwa [List.getLast?_cons_cons] at h

theorem lastOK_of_append_any {x y : Str} (h : lastOK (x ++ y) = true) :
    lastOK y = true := by
  induction x with
  | nil => exact h
  | cons c x' ih =>
    rw [List.cons_append] at h
    exact ih (lastOK_tail_of_cons h)

theorem splitSentencesAux_ok :
    ∀ (input cur : Str),
      looseTidy (cur ++ input) = true →
      lastOK (cur ++ input) = true →
      delimFree cur →
      (∀ s ∈ splitSentencesAux input cur, SentOK s) ∧
      (∀ s ∈ (splitSentencesAux input cur).dropLast, EndsDelim s) ∧
      (cur ++ input ≠ [] → splitSentencesAux input cur ≠ []) := by
  intro input
  induction input with
  | nil =>
    intro cur htidy hlast hfree
    rw [splitSentencesAux_nil]
    by_cases hcur : cur.isEmpty
    · rw [if_pos hcur]
      refine ⟨by simp, by simp, ?_⟩
      intro hne
      rw [List.isEmpty_iff] at hcur
      rw [hcur] at hne
      simp at hne
    · rw [if_neg hcur]
      have hcne : cur ≠ [] := by simpa using hcur
      rw [List.append_nil] at htidy hlast
      refine ⟨?_, by simp, by simp⟩
      intro s hs
      simp only [List.mem_singleton] at hs
      subst hs
      exact ⟨pyStrip_ne_nil hcne hlast, tidy_pyStrip htidy,
        Or.inr (delimFree_pyStrip hfree)⟩
  | cons c cs ih =>
    intro cur htidy hlast hfree
    by_cases hdel : isDelim c = true
    · have hcsp : isPySpace c = false := isDelim_not_pyspace hdel
      have hs_eq : pyStrip (cur ++ [c]) = lstripPy cur ++ [c] :=
        pyStrip_append_singleton cur hcsp
      have hs_ne : ¬(pyStrip (cur ++ [c])).isEmpty := by
        rw [hs_eq]
        simp
      rw [splitSentencesAux_cons_delim cs cur hdel, if_neg hs_ne]
      have hassoc : cur ++ c :: cs = (cur ++ [c]) ++ cs := by simp
      have htidy' : looseTidy ((cur ++ [c]) ++ cs) = true := by rw [← hassoc]; exact htidy
      have hlast' : lastOK ((cur ++ [c]) ++ cs) = true := by rw [← hassoc]; exact hlast
      have hihargs : looseTidy ([] ++ cs) = true ∧ lastOK ([] ++ cs) = true := by
        constructor
        · exact looseTidy_of_append_right (cur ++ [c]) cs htidy'
        · exact lastOK_of_append_any hlast'
      obtain ⟨hok_ih, hdl_ih, hne_ih⟩ :=
        ih [] hihargs.1 hihargs.2 delimFree_nil
      have hsent : SentOK (pyStrip (cur ++ [c])) := by
        refine ⟨by rw [hs_eq]; simp, tidy_pyStrip ?_, Or.inl ?_⟩
        · exact looseTidy_of_append_left (cur ++ [c]) cs htidy'
        · refine ⟨lstripPy cur, c, hdel, ?_, hs_eq⟩
          refine delimFree_sub hfree ?_
          intro a ha
          rcases lstripPy_suffix cur with ⟨t, heq⟩
          rw [heq]
          exact List.mem_append_right t ha
      refine ⟨?_, ?_, by simp⟩
      · intro s hs
        rcases List.mem_cons.mp hs with rfl | hs
        · exact hsent
        · exact hok_ih s hs
      · intro s hs
        cases hrest : splitSentencesAux cs [] with
        | nil =>
          rw [hrest] at hs
          simp at hs
        | cons x xs =>
          rw [hrest] at hs
          rw [show (pyStrip (cur ++ [c]) :: x :: xs).dropLast =
              pyStrip (cur ++ [c]) :: (x :: xs).dropLast by rfl] at hs
          rcases List.mem_cons.mp hs with rfl | hs
          · rcases hsent.2.2 with h | h
            · exact h
            · exact absurd hdel (by
                have := h c (by rw [hs_eq]; simp)
                simp [this])
          · rw [hrest] at hdl_ih
            exact hdl_ih s hs
    · have hdel' : isDelim c = false := by simpa using hdel
      rw [splitSentencesAux_cons_nondelim cs cur hdel']
      have hassoc : cur ++ c :: cs = (cur ++ [c]) ++ cs := by simp
      rw [hassoc] at htidy hlast
      obtain ⟨h1, h2, h3⟩ := ih (cur ++ [c]) htidy hlast
        (delimFree_append hfree (delimFree_singleton hdel'))
      refine ⟨h1, h2, ?_⟩
      intro _
      exact h3 (by simp)

theorem splitSentences_ok {l : Str} (h : Tidy l) :
    SentencesOK (splitSentences l) ∧ (l ≠ [] → splitSentences l ≠ []) := by
  obtain ⟨h1, h2, h3⟩ :=
    splitSentencesAux_ok l [] (by simpa using h.1) (by simpa using h.2.2) delimFree_nil
  exact ⟨⟨h1, h2⟩, fun hne => h3 (by simpa using hne)⟩

/-! ### Compression: deduplication preserves sentence shape -/

theorem dedupSeen_eq_self {α : Type} [DecidableEq α] :
    ∀ (l seen : List α), l.Nodup → (∀ x ∈ l, x ∉ seen) → dedupSeen l seen = l := by
  intro l
  induction l with
  | nil => intro seen _ _; rfl
  | cons x xs ih =>
    intro seen hnd hs
    unfold dedupSeen
    rw [if_neg (hs x (by simp))]
    congr 1
    refine ih (x :: seen) (List.Nodup.of_cons hnd) ?_
    intro a ha hmem
    rcases List.mem_cons.mp hmem with rfl | hseen
    · exact (List.nodup_cons.mp hnd).1 ha
    · exact hs a (List.mem_cons_of_mem x ha) hseen

theorem dedupFirst_eq_self_of_nodup {α : Type} [DecidableEq α] {l : List α}
    (h : l.Nodup) : dedupFirst l = l :=
  dedupSeen_eq_self l [] h (by simp)

theorem dedupSeen_append_singleton {α : Type} [DecidableEq α] :
    ∀ (l seen : List α) (x : α), x ∉ l → x ∉ seen →
      dedupSeen (l ++ [x]) seen = dedupSeen l seen ++ [x] := by
  intro l
  induction l with
  | nil =>
    intro seen x _ hs
    rw [List.nil_append]
    unfold dedupSeen
    rw [if_neg hs]
    rfl
  | cons a as ih =>
    intro seen x hx hs
    rw [List.cons_append]
    unfold dedupSeen
    by_cases ha : a ∈ seen
    · rw [if_pos ha, if_pos ha]
      exact ih seen x (fun h => hx (List.mem_cons_of_mem a h)) hs
    · rw [if_neg ha, if_neg ha, List.cons_append]
      congr 1
      refine ih (a :: seen) x (fun h => hx (List.mem_cons_of_mem a h)) ?_
      intro hmem
      rcases List.mem_cons.mp hmem with rfl | h
      · exact hx (List.mem_cons_self x as)
      · exact hs h

theorem dedupFirst_ne_nil {α : Type} [DecidableEq α] {l : List α} (h : l ≠ []) :
    dedupFirst l ≠ [] := by
  cases l with
  | nil => exact absurd rfl h
  | cons x xs =>
    intro hc
    have : x ∈ dedupFirst (x :: xs) := (mem_dedupFirst _ x).mpr (by simp)
    rw [hc] at this
    simp at this

theorem not_delimFree_of_endsDelim {s : Str} (h : EndsDelim s) : ¬delimFree s := by
  rcases h with ⟨b, d, hd, _, rfl⟩
  intro hfree
  have := hfree d (by simp)
  rw [hd] at this
  simp at this

theorem sentencesOK_dedupFirst {ss : List Str} (h : SentencesOK ss) :
    SentencesOK (dedupFirst ss) := by
  rcases ss.eq_nil_or_concat with rfl | ⟨init, last, rfl⟩
  · exact h
  · rw [List.concat_eq_append] at *
    have hmemOK : ∀ s ∈ dedupFirst (init ++ [last]), SentOK s :=
      fun s hs => h.1 s ((mem_dedupFirst _ s).mp hs)
    have hEndsInit : ∀ s ∈ init, EndsDelim s := by
      intro s hs
      refine h.2 s ?_
      rwa [List.dropLast_concat]
    have hlastOK : SentOK last := h.1 last (by simp)
    rcases hlastOK.2.2 with hED | hDF
    · have hAll : ∀ s ∈ init ++ [last], EndsDelim s := by
        intro s hs
        rcases List.mem_append.mp hs with hs | hs
        · exact hEndsInit s hs
        · simp only [List.mem_singleton] at hs
          subst hs
          exact hED
      refine ⟨hmemOK, ?_⟩
      intro s hs
      have hs1 : s ∈ dedupFirst (init ++ [last]) :=
        List.mem_of_mem_dropLast hs
      exact hAll s ((mem_dedupFirst _ s).mp hs1)
    · have hnotin : last ∉ init := by
        intro hmem
        exact not_delimFree_of_endsDelim (hEndsInit last hmem) hDF
      have hsplit : dedupFirst (init ++ [last]) = dedupFirst init ++ [last] :=
        dedupSeen_append_singleton init [] last hnotin (by simp)
      refine ⟨hmemOK, ?_⟩
      rw [hsplit, List.dropLast_concat]
      intro s hs
      exact hEndsInit s ((mem_dedupFirst _ s).mp hs)

/-! ### Compression: specification of `lastSpaceIdx` -/

theorem lastSpaceIdx_cons_some {c : Char} {cs : Str} {i : Nat} (h : lastSpaceIdx cs = some i) :
    lastSpaceIdx (c :: cs) = some (i + 1) := by
  simp [lastSpaceIdx, h]

theorem lastSpaceIdx_cons_none {c : Char} {cs : Str} (h : lastSpaceIdx cs = none) :
    lastSpaceIdx (c :: cs) = if c = ' ' then some 0 else none := by
  simp [lastSpaceIdx, h]

theorem lastSpaceIdx_none_spec : ∀ {l : Str}, lastSpaceIdx l = none →
    ∀ j : Nat, l[j]? ≠ some ' ' := by
  intro l
  induction l with
  | nil => intro _ j h; simp at h
  | cons c cs ih =>
    intro h j
    cases hcs : lastSpaceIdx cs with
    | some i =>
      rw [lastSpaceIdx_cons_some hcs] at h
      exact absurd h (by simp)
    | none =>
      rw [lastSpaceIdx_cons_none hcs] at h
      have hc : ¬ c = ' ' := by
        intro hc
        rw [if_pos hc] at h
        exact absurd h (by simp)
      cases j with
      | zero =>
        intro hget
        exact hc (by simpa using hget)
      | succ k =>
        simpa using ih hcs k

theorem lastSpaceIdx_some_spec : ∀ {l : Str} {i : Nat}, lastSpaceIdx l = some i →
    i < l.length ∧ l[i]? = some ' ' ∧ ∀ j : Nat, i < j → l[j]? ≠ some ' ' := by
  intro l
  induction l with
  | nil => intro i h; simp [lastSpaceIdx] at h
  | cons c cs ih =>
    intro i h
    cases hcs : lastSpaceIdx cs with
    | some k =>
      rw [lastSpaceIdx_cons_some hcs] at h
      injection h with h'
      subst h'
      obtain ⟨hlt, hget, hmax⟩ := ih hcs
      refine ⟨by simpa [List.length_cons] using Nat.succ_lt_succ hlt, by simpa using hget, ?_⟩
      intro j hj
      cases j with
      | zero => exact absurd hj (by omega)
      | succ m =>
        have hm : k < m := by omega
        simpa using hmax m hm
    | none =>
      rw [lastSpaceIdx_cons_none hcs] at h
      by_cases hc : c = ' '
      · rw [if_pos hc] at h
        injection h with h'
        subst h'
        refine ⟨by simp, by simp [hc], ?_⟩
        intro j hj
        cases j with
        | zero => exact absurd hj (by omega)
        | succ m => simpa using lastSpaceIdx_none_spec hcs m
      · rw [if_neg hc] at h
        exact absurd h (by simp)

/-! ### Compression: character-level consequences of `looseTidy` -/

theorem looseTidy_all_okChar : ∀ {l : Str}, looseTidy l = true →
    ∀ c ∈ l, okChar c = true := by
  intro l
  induction l with
  | nil => intro _ c hc; exact absurd hc (by simp)
  | cons a rest ih =>
    intro h c hc
    rcases List.mem_cons.mp hc with rfl | hc
    · exact looseTidy_head_ok h
    · exact ih (looseTidy_tail h) c hc

theorem looseTidy_no_adj : ∀ {l : Str}, looseTidy l = true →
    ∀ i : Nat, l[i]? = some ' ' → l[i+1]? ≠ some ' ' := by
  intro l
  induction l with
  | nil => intro _ i h; simp at h
  | cons a rest ih =>
    intro h i
    cases rest with
    | nil =>
      intro hi hnext
      cases i with
      | zero => simp at hnext
      | succ k => simp at hi
    | cons b rest' =>
      rw [looseTidy_cons_cons] at h
      have h1 := Bool.and_eq_true_iff.mp h
      have hnotadj : (!(a = ' ' && b = ' ')) = true := (Bool.and_eq_true_iff.mp h1.1).2
      cases i with
      | zero =>
        intro hi hnext
        have ha : a = ' ' := by simpa using hi
        have hb : b = ' ' := by simpa using hnext
        rw [ha, hb] at hnotadj
        simp at hnotadj
      | succ k =>
        intro hi hnext
        exact ih h1.2 k (by simpa using hi) (by simpa using hnext)

theorem okChar_not_space_not_ws {c : Char} (hok : okChar c = true) (hc : ¬ c = ' ') :
    isPySpace c = false := by
  unfold okChar at hok
  rcases Bool.or_eq_true_iff.mp hok with h | h
  · simpa using h
  · exact absurd (by simpa using h) hc

theorem getLast?_take_of_getElem {l : Str} {k : Nat} (hk : 0 < k) (hkl : k ≤ l.length) :
    (l.take k).getLast? = l[k-1]? := by
  rw [List.getLast?_eq_getElem?]
  have hlen : (l.take k).length = k := by
    rw [List.length_take]
    omega
  rw [hlen]
  exact List.getElem?_take_of_lt (by omega)

theorem lastOK_of_getElem_not_space {l : Str} {k : Nat} (hk : 0 < k) (hkl : k ≤ l.length)
    (hok : looseTidy l = true) (hsp : l[k-1]? ≠ some ' ') :
    lastOK (l.take k) = true := by
  unfold lastOK
  rw [getLast?_take_of_getElem hk hkl]
  cases hg : l[k-1]? with
  | none => rfl
  | some c =>
    have hc : ¬ c = ' ' := by
      intro hc
      exact hsp (by rw [hg, hc])
    have hok' : okChar c = true := looseTidy_all_okChar hok c (List.getElem?_mem hg)
    simp [okChar_not_space_not_ws hok' hc]

/-! ### Compression: shape of a prefix of a joined block list -/

theorem take_joinSp_shape :
    ∀ (ss : List Str) (k : Nat), (∀ s ∈ ss, s ≠ []) →
      (joinSp ss).take k ≠ [] →
      lastOK ((joinSp ss).take k) = true →
      ∃ bs1 b2 bs2 m, ss = bs1 ++ b2 :: bs2 ∧ 0 < m ∧ m ≤ b2.length ∧
        lastOK (b2.take m) = true ∧
        (joinSp ss).take k = joinSp (bs1 ++ [b2.take m]) := by
  intro ss
  induction ss with
  | nil =>
    intro k _ hne _
    rw [joinSp_nil] at hne
    exact absurd (List.take_nil) hne
  | cons b rest ih =>
    intro k hblocks hne hlast
    cases rest with
    | nil =>
      rw [joinSp_single] at hne hlast ⊢
      by_cases hk : k ≤ b.length
      · have hkpos : 0 < k := by
          by_contra h0
          exact hne (by rw [Nat.eq_zero_of_not_pos h0]; exact List.take_zero b)
        exact ⟨[], b, [], k, rfl, hkpos, hk, hlast,
          by rw [List.nil_append, joinSp_single]⟩
      · have hb : b.take k = b := List.take_of_length_le (by omega)
        have hbne : b ≠ [] := hblocks b (by simp)
        have hlen : 0 < b.length := List.length_pos.mpr hbne
        refine ⟨[], b, [], b.length, rfl, hlen, Nat.le_refl _, ?_, ?_⟩
        · rw [List.take_length]
          rw [hb] at hlast
          exact hlast
        · rw [List.nil_append, joinSp_single, List.take_length, hb]
    | cons r rs =>
      have hrne : (r :: rs) ≠ [] := by simp
      have hj : joinSp (b :: r :: rs) = b ++ ' ' :: joinSp (r :: rs) :=
        joinSp_cons b (r :: rs) hrne
      rw [hj] at hne hlast ⊢
      rcases Nat.lt_or_ge k (b.length + 1) with hlt | hge
      · have hk : k ≤ b.length := by omega
        have htake : (b ++ ' ' :: joinSp (r :: rs)).take k = b.take k :=
          List.take_append_of_le_length hk
        rw [htake] at hne hlast ⊢
        have hkpos : 0 < k := by
          by_contra h0
          exact hne (by rw [Nat.eq_zero_of_not_pos h0]; exact List.take_zero b)
        exact ⟨[], b, r :: rs, k, rfl, hkpos, hk, hlast,
          by rw [List.nil_append, joinSp_single]⟩
      · rcases Nat.eq_or_lt_of_le hge with heq | hgt
        · exfalso
          have htake : (b ++ ' ' :: joinSp (r :: rs)).take k = b ++ [' '] := by
            have h1 : k = b.length + 1 := heq.symm
            rw [h1, List.take_append, List.take_succ_cons, List.take_zero]
          rw [htake] at hlast
          rw [lastOK_append (by simp)] at hlast
          simp [lastOK, isPySpace] at hlast
        · have hk2 : b.length + 1 < k := hgt
          have hksplit : k = b.length + (k - b.length) := by omega
          have hkm : k - b.length = (k - b.length - 1) + 1 := by omega
          have htake : (b ++ ' ' :: joinSp (r :: rs)).take k =
              b ++ ' ' :: (joinSp (r :: rs)).take (k - b.length - 1) := by
            rw [hksplit, List.take_append, hkm, List.take_succ_cons]
            have harith : List.length b + (k - List.length b - 1 + 1) - List.length b - 1 =
                k - List.length b - 1 := by omega
            rw [harith]
          rw [htake] at hne hlast ⊢
          have hblocks' : ∀ s ∈ r :: rs, s ≠ [] := fun s hs => hblocks s (by simp [hs])
          have hjne : joinSp (r :: rs) ≠ [] := joinSp_ne_nil _ hrne hblocks'
          have hone : (joinSp (r :: rs)).take (k - b.length - 1) ≠ [] := by
            intro h0
            rcases List.take_eq_nil_iff.mp h0 with h | h
            · omega
            · exact hjne h
          have hlast' : lastOK ((joinSp (r :: rs)).take (k - b.length - 1)) = true := by
            have hassoc : b ++ ' ' :: (joinSp (r :: rs)).take (k - b.length - 1) =
                (b ++ [' ']) ++ (joinSp (r :: rs)).take (k - b.length - 1) := by
              simp
            rw [hassoc, lastOK_append hone] at hlast
            exact hlast
          obtain ⟨bs1, b2, bs2, m, hsplit, hm0, hmle, hplast, hpre⟩ :=
            ih (k - b.length - 1) hblocks' hone hlast'
          refine ⟨b :: bs1, b2, bs2, m, by rw [hsplit]; rfl, hm0, hmle, hplast, ?_⟩
          rw [hpre]
          have : (b :: bs1) ++ [b2.take m] = b :: (bs1 ++ [b2.take m]) := rfl
          rw [this, joinSp_cons b (bs1 ++ [b2.take m]) (by simp)]

/-! ### Compression: the truncated output is again a joined sentence list -/

theorem take_sentence_cases {b2 : Str} {m : Nat} (hS : SentOK b2) (hmle : m ≤ b2.length) :
    delimFree (b2.take m) ∨ b2.take m = b2 := by
  rcases hS.2.2 with hED | hDF
  · rcases hED with ⟨body, d, hd, hbody, rfl⟩
    by_cases hm : m ≤ body.length
    · left
      have : (body ++ [d]).take m = body.take m := List.take_append_of_le_length hm
      rw [this]
      exact delimFree_sub hbody fun a ha => (List.take_sublist m body).subset ha
    · right
      have hm' : m = body.length + 1 := by
        have := hmle
        simp [List.length_append] at this
        omega
      rw [hm', List.take_append, List.take_succ_cons, List.take_zero]
  · left
    exact delimFree_sub hDF fun a ha => (List.take_sublist m b2).subset ha

theorem shape_package {ss bs1 bs2 : List Str} {b2 : Str} {m : Nat}
    (hok : SentencesOK ss) (hnd : List.Nodup ss)
    (hsplit : ss = bs1 ++ b2 :: bs2) (hm0 : 0 < m) (hmle : m ≤ b2.length)
    (hplast : lastOK (b2.take m) = true) :
    SentencesOK (bs1 ++ [b2.take m]) ∧ List.Nodup (bs1 ++ [b2.take m]) ∧
      bs1 ++ [b2.take m] ≠ [] := by
  subst hsplit
  have hb2mem : b2 ∈ bs1 ++ b2 :: bs2 := by simp
  have hb2S : SentOK b2 := hok.1 b2 hb2mem
  have hb2ne : b2 ≠ [] := hb2S.1
  have hbs1ED : ∀ s ∈ bs1, EndsDelim s := by
    intro s hs
    apply hok.2
    rw [List.dropLast_append_cons]
    exact List.mem_append_left _ hs
  have hbs1S : ∀ s ∈ bs1, SentOK s := fun s hs =>
    hok.1 s (List.mem_append_left _ hs)
  have hpne : b2.take m ≠ [] := by
    intro h0
    rcases List.take_eq_nil_iff.mp h0 with h | h
    · omega
    · exact hb2ne h
  have hpcases : delimFree (b2.take m) ∨ b2.take m = b2 :=
    take_sentence_cases hb2S hmle
  have hpS : SentOK (b2.take m) := by
    refine ⟨hpne, ⟨looseTidy_take m hb2S.2.1.1, ?_, hplast⟩, ?_⟩
    · exact headOK_of_front hb2S.2.1.2.1 ⟨b2.drop m, (List.take_append_drop m b2).symm⟩
    · rcases hpcases with hDF | hEQ
      · exact Or.inr hDF
      · rw [hEQ]
        exact hb2S.2.2
  have hpnotmem : b2.take m ∉ bs1 := by
    rcases hpcases with hDF | hEQ
    · intro hmem
      exact not_delimFree_of_endsDelim (hbs1ED _ hmem) hDF
    · rw [hEQ]
      intro hmem
      exact List.disjoint_of_nodup_append hnd hmem (by simp)
  refine ⟨⟨?_, ?_⟩, ?_, by simp⟩
  · intro s hs
    rcases List.mem_append.mp hs with hs | hs
    · exact hbs1S s hs
    · rw [List.mem_singleton.mp hs]
      exact hpS
  · intro s hs
    rw [List.dropLast_concat] at hs
    exact hbs1ED s hs
  · rw [List.nodup_append]
    exact ⟨hnd.of_append_left, List.nodup_singleton _,
      fun a ha hb => hpnotmem (by rwa [List.mem_singleton.mp hb] at ha)⟩

theorem truncate_package {ss : List Str} (hok : SentencesOK ss) (hnd : List.Nodup ss)
    (hne : ss ≠ []) (n : Nat) :
    truncateAtBoundary (joinSp ss) n = [] ∨
    ∃ ss', SentencesOK ss' ∧ List.Nodup ss' ∧ ss' ≠ [] ∧
      truncateAtBoundary (joinSp ss) n = joinSp ss' ∧ (joinSp ss').length ≤ n := by
  have hblocksne : ∀ s ∈ ss, s ≠ [] := fun s hs => (hok.1 s hs).1
  have hblockstidy : ∀ b ∈ ss, b ≠ [] ∧ Tidy b := fun b hb =>
    ⟨(hok.1 b hb).1, (hok.1 b hb).2.1⟩
  have htidy : Tidy (joinSp ss) := tidy_joinSp_blocks ss hne hblockstidy
  have hresne : joinSp ss ≠ [] := joinSp_ne_nil ss hne hblocksne
  by_cases hlen : (joinSp ss).length ≤ n
  · right
    refine ⟨ss, hok, hnd, hne, ?_, hlen⟩
    rw [truncateAtBoundary, if_pos hlen]
  · have hlen' : n < (joinSp ss).length := by omega
    cases hfind : lastSpaceIdx ((joinSp ss).take n) with
    | none =>
      have hval : truncateAtBoundary (joinSp ss) n = (joinSp ss).take n := by
        rw [truncateAtBoundary, if_neg hlen, hfind]
      by_cases hn0 : n = 0
      · left
        rw [hval, hn0, List.take_zero]
      · right
        have hn1 : 0 < n := Nat.pos_of_ne_zero hn0
        have hone : (joinSp ss).take n ≠ [] := by
          intro h0
          rcases List.take_eq_nil_iff.mp h0 with h | h
          · exact hn0 h
          · exact hresne h
        have hnl : n ≤ (joinSp ss).length := by omega
        have hlast : lastOK ((joinSp ss).take n) = true := by
          apply lastOK_of_getElem_not_space hn1 hnl htidy.1
          intro hsp
          have := lastSpaceIdx_none_spec hfind (n - 1)
          rw [List.getElem?_take_of_lt (by omega)] at this
          exact this hsp
        obtain ⟨bs1, b2, bs2, m, hsplit, hm0, hmle, hplast, hpre⟩ :=
          take_joinSp_shape ss n hblocksne hone hlast
        obtain ⟨hok', hnd', hne'⟩ := shape_package hok hnd hsplit hm0 hmle hplast
        refine ⟨bs1 ++ [b2.take m], hok', hnd', hne', by rw [hval, hpre], ?_⟩
        rw [← hpre]
        exact List.length_take_le n _
    | some cut =>
      have hval : truncateAtBoundary (joinSp ss) n = rstripPy ((joinSp ss).take cut) := by
        rw [truncateAtBoundary, if_neg hlen, hfind]
      obtain ⟨hcutlt, hcutsp, _⟩ := lastSpaceIdx_some_spec hfind
      have hcutn : cut < n := by
        have := List.length_take_le n (joinSp ss)
        omega
      by_cases hc0 : cut = 0
      · left
        rw [hval, hc0, List.take_zero]
        rfl
      · right
        have hc1 : 0 < cut := Nat.pos_of_ne_zero hc0
        have hcutres : (joinSp ss)[cut]? = some ' ' := by
          rw [← List.getElem?_take_of_lt hcutn]
          exact hcutsp
        have hprev : (joinSp ss)[cut - 1]? ≠ some ' ' := by
          intro hsp
          have := looseTidy_no_adj htidy.1 (cut - 1) hsp
          rw [Nat.sub_add_cancel hc1] at this
          exact this hcutres
        have hcl : cut ≤ (joinSp ss).length := by omega
        have hlastc : lastOK ((joinSp ss).take cut) = true :=
          lastOK_of_getElem_not_space hc1 hcl htidy.1 hprev
        have hrs : rstripPy ((joinSp ss).take cut) = (joinSp ss).take cut :=
          rstripPy_eq_self hlastc
        have honec : (joinSp ss).take cut ≠ [] := by
          intro h0
          rcases List.take_eq_nil_iff.mp h0 with h | h
          · exact hc0 h
          · exact hresne h
        obtain ⟨bs1, b2, bs2, m, hsplit, hm0, hmle, hplast, hpre⟩ :=
          take_joinSp_shape ss cut hblocksne honec hlastc
        obtain ⟨hok', hnd', hne'⟩ := shape_package hok hnd hsplit hm0 hmle hplast
        refine ⟨bs1 ++ [b2.take m], hok', hnd', hne', by rw [hval, hrs, hpre], ?_⟩
        rw [← hpre]
        calc ((joinSp ss).take cut).length ≤ cut := List.length_take_le cut _
          _ ≤ n := by omega

/-! ### Compression: re-splitting a joined sentence list gives it back -/

theorem splitSentencesAux_walk :
    ∀ (b : Str), delimFree b →
      ∀ (r cur : Str), splitSentencesAux (b ++ r) cur = splitSentencesAux r (cur ++ b) := by
  intro b
  induction b with
  | nil => intro _ r cur; simp
  | cons c b' ih =>
    intro hDF r cur
    have hc : isDelim c = false := hDF c (by simp)
    have hDF' : delimFree b' := fun a ha => hDF a (by simp [ha])
    rw [List.cons_append, splitSentencesAux_cons_nondelim _ _ hc, ih hDF' r (cur ++ [c]),
      List.append_assoc]
    rfl

theorem pyStrip_opt_space (w s : Str) (hw : w = [] ∨ w = [' ']) :
    pyStrip (w ++ s) = pyStrip s := by
  rcases hw with rfl | rfl
  · rfl
  · exact pyStrip_space_cons s

theorem resplit_aux :
    ∀ (ss : List Str), SentencesOK ss → ss ≠ [] →
      ∀ w, (w = [] ∨ w = [' ']) → splitSentencesAux (joinSp ss) w = ss := by
  intro ss
  induction ss with
  | nil => intro _ h; exact absurd rfl h
  | cons s rest ih =>
    intro hok _ w hw
    have hsS : SentOK s := hok.1 s (by simp)
    cases rest with
    | nil =>
      rw [joinSp_single]
      rcases hsS.2.2 with hED | hDF
      · rcases hED with ⟨body, d, hd, hbody, hs⟩
        rw [hs]
        rw [splitSentencesAux_walk body hbody [d] w]
        rw [splitSentencesAux_cons_delim [] (w ++ body) hd]
        have hstrip : pyStrip ((w ++ body) ++ [d]) = body ++ [d] := by
          rw [List.append_assoc, pyStrip_opt_space w _ hw, ← hs, pyStrip_eq_self hsS.2.1, hs]
        rw [hstrip]
        rw [if_neg (by simp)]
        rfl
      · have hwalk := splitSentencesAux_walk s hDF [] w
        rw [List.append_nil] at hwalk
        rw [hwalk, splitSentencesAux_nil]
        have hne' : w ++ s ≠ [] := fun h => hsS.1 (List.append_eq_nil.mp h).2
        rw [if_neg (by simpa using hne')]
        rw [pyStrip_opt_space w s hw, pyStrip_eq_self hsS.2.1]
    | cons r2 rest' =>
      have hsED : EndsDelim s := by
        apply hok.2
        rw [List.dropLast_cons₂]
        exact List.mem_cons_self _ _
      rcases hsED with ⟨body, d, hd, hbody, hs⟩
      rw [joinSp_cons s (r2 :: rest') (by simp), hs]
      rw [List.append_assoc, splitSentencesAux_walk body hbody _ w, List.singleton_append]
      rw [splitSentencesAux_cons_delim _ (w ++ body) hd]
      have hstrip : pyStrip ((w ++ body) ++ [d]) = body ++ [d] := by
        rw [List.append_assoc, pyStrip_opt_space w _ hw, ← hs, pyStrip_eq_self hsS.2.1, hs]
      rw [hstrip]
      rw [if_neg (by simp)]
      have hok' : SentencesOK (r2 :: rest') := by
        constructor
        · intro t ht
          exact hok.1 t (by simp [ht])
        · intro t ht
          apply hok.2
          rw [List.dropLast_cons₂]
          exact List.mem_cons_of_mem _ ht
      have htail : splitSentencesAux (' ' :: joinSp (r2 :: rest')) [] = r2 :: rest' := by
        rw [splitSentencesAux_cons_nondelim _ _ (by decide), List.nil_append]
        exact ih hok' (by simp) [' '] (Or.inr rfl)
      rw [htail]

theorem splitSentences_joinSp {ss : List Str} (hok : SentencesOK ss) (hne : ss ≠ []) :
    splitSentences (joinSp ss) = ss :=
  resplit_aux ss hok hne [] (Or.inl rfl)

/-! ### Compression: fixed points and the truncation specification -/

theorem compress_fix {ss : List Str} (hok : SentencesOK ss) (hnd : List.Nodup ss)
    (hne : ss ≠ []) {n : Nat} (hlen : (joinSp ss).length ≤ n) :
    compress_text (joinSp ss) n = joinSp ss := by
  have hblockstidy : ∀ b ∈ ss, b ≠ [] ∧ Tidy b := fun b hb =>
    ⟨(hok.1 b hb).1, (hok.1 b hb).2.1⟩
  have htidy : Tidy (joinSp ss) := tidy_joinSp_blocks ss hne hblockstidy
  have hresne : joinSp ss ≠ [] := joinSp_ne_nil ss hne fun s hs => (hok.1 s hs).1
  simp only [compress_text]
  rw [pyStrip_eq_self htidy, normalize_fix htidy]
  rw [if_neg (by simpa using hresne)]
  rw [splitSentences_joinSp hok hne, dedupFirst_eq_self_of_nodup hnd]
  rw [truncateAtBoundary, if_pos hlen]

theorem truncateAtBoundary_spec (res : Str) (n : Nat) :
    TruncSpec res (truncateAtBoundary res n) n := by
  by_cases hlen : res.length ≤ n
  · exact Or.inl ⟨hlen, by rw [truncateAtBoundary, if_pos hlen]⟩
  · right
    refine ⟨by omega, ?_⟩
    cases hfind : lastSpaceIdx (res.take n) with
    | none =>
      left
      exact ⟨fun j => lastSpaceIdx_none_spec hfind j,
        by rw [truncateAtBoundary, if_neg hlen, hfind]⟩
    | some cut =>
      right
      obtain ⟨_, hsp, hmax⟩ := lastSpaceIdx_some_spec hfind
      exact ⟨cut, hsp, hmax, by rw [truncateAtBoundary, if_neg hlen, hfind]⟩

theorem truncateAtBoundary_length_le (res : Str) (n : Nat) :
    (truncateAtBoundary res n).length ≤ n := by
  by_cases hlen : res.length ≤ n
  · rw [truncateAtBoundary, if_pos hlen]
    exact hlen
  · cases hfind : lastSpaceIdx (res.take n) with
    | none =>
      rw [truncateAtBoundary, if_neg hlen, hfind]
      exact List.length_take_le n res
    | some cut =>
      rw [truncateAtBoundary, if_neg hlen, hfind]
      show (rstripPy (res.take cut)).length ≤ n
      obtain ⟨hlt, _, _⟩ := lastSpaceIdx_some_spec hfind
      have h1 : (rstripPy (res.take cut)).length ≤ (res.take cut).length := by
        unfold rstripPy
        rw [List.length_reverse]
        calc (List.dropWhile isPySpace (res.take cut).reverse).length
            ≤ (res.take cut).reverse.length := (List.dropWhile_sublist _).length_le
          _ = (res.take cut).length := List.length_reverse _
      have h2 : (res.take cut).length ≤ cut := List.length_take_le cut res
      have h3 : cut < n := by
        have := List.length_take_le n res
        omega
      omega

/-! ### Idempotence of compression (claim C3) -/

/-- C3: `compress_text` is idempotent — for every text `t` and character
budget `n`, compressing the compressed output again under the same budget
returns it unchanged: `compress_text (compress_text t n) n =
compress_text t n`. -/
theorem C3_idempotent (t : Str) (n : Nat) :
    compress_text (compress_text t n) n = compress_text t n := by
  by_cases hclean : (joinSp (pyWords (pyStrip t))).isEmpty = true
  · have h1 : compress_text t n = [] := by
      simp only [compress_text]
      rw [if_pos hclean]
    rw [h1]
    rfl
  · have htidy : Tidy (joinSp (pyWords (pyStrip t))) := tidy_normalize (pyStrip t)
    have hclne : joinSp (pyWords (pyStrip t)) ≠ [] := by simpa using hclean
    obtain ⟨hsOK, hsne⟩ := splitSentences_ok htidy
    have hok : SentencesOK (dedupFirst (splitSentences (joinSp (pyWords (pyStrip t))))) :=
      sentencesOK_dedupFirst hsOK
    have hnd := nodup_dedupFirst (splitSentences (joinSp (pyWords (pyStrip t))))
    have hne : dedupFirst (splitSentences (joinSp (pyWords (pyStrip t)))) ≠ [] :=
      dedupFirst_ne_nil (hsne hclne)
    have hval : compress_text t n =
        truncateAtBoundary
          (joinSp (dedupFirst (splitSentences (joinSp (pyWords (pyStrip t)))))) n := by
      simp only [compress_text]
      rw [if_neg hclean]
    rcases truncate_package hok hnd hne n with h0 | ⟨ss', hok', hnd', hne', heq, hlen⟩
    · rw [hval, h0]
      rfl
    · rw [hval, heq, compress_fix hok' hnd' hne' hlen]

/-! ### Length bound, sentence survival and truncation boundary (claim C4) -/

/-- C4, refutation of the truncation convention: the claim reads "truncated
at the last space at or before index `n`", but the code searches
`res[0:n]`, i.e. strictly before index `n`.  On `"ab cd ef"` with budget 5
the claimed version cuts at the space at index 5 yielding `"ab cd"`, while
the code cuts at the space at index 2 yielding `"ab"`. -/
theorem C4_counterexample :
    compress_text ("ab cd ef".data) 5 ≠ c4ClaimCompress ("ab cd ef".data) 5 := by
  decide

/-- C4, amended: `compress_text` output never exceeds the budget `n`; the
surviving sentences are a subsequence of the split sentences (original
order) with no duplicates; and on non-empty cleaned input the output is the
joined survivor string truncated per `TruncSpec` — returned whole when it
fits, otherwise cut at the last space STRICTLY BEFORE index `n` (trailing
whitespace trimmed), or hard-cut at `n` when `res[0:n]` holds no space. -/
theorem C4_amended (t : Str) (n : Nat) :
    (compress_text t n).length ≤ n ∧
    List.Sublist (dedupFirst (splitSentences (joinSp (pyWords (pyStrip t)))))
      (splitSentences (joinSp (pyWords (pyStrip t)))) ∧
    List.Nodup (dedupFirst (splitSentences (joinSp (pyWords (pyStrip t))))) ∧
    (joinSp (pyWords (pyStrip t)) ≠ [] →
      TruncSpec (joinSp (dedupFirst (splitSentences (joinSp (pyWords (pyStrip t))))))
        (compress_text t n) n) := by
  refine ⟨?_, dedupFirst_sublist _, nodup_dedupFirst _, ?_⟩
  · by_cases hclean : (joinSp (pyWords (pyStrip t))).isEmpty = true
    · have h1 : compress_text t n = [] := by
        simp only [compress_text]
        rw [if_pos hclean]
      rw [h1]
      exact Nat.zero_le n
    · have hval : compress_text t n =
          truncateAtBoundary
            (joinSp (dedupFirst (splitSentences (joinSp (pyWords (pyStrip t)))))) n := by
        simp only [compress_text]
        rw [if_neg hclean]
      rw [hval]
      exact truncateAtBoundary_length_le _ n
  · intro hne
    have hval : compress_text t n =
        truncateAtBoundary
          (joinSp (dedupFirst (splitSentences (joinSp (pyWords (pyStrip t)))))) n := by
      simp only [compress_text]
      rw [if_neg (by simpa using hne)]
    rw [hval]
    exact truncateAtBoundary_spec _ n

/-- C4, witness: the amended truncation specification instantiated on the
concrete input `"ab cd ef"` with budget 5 (cleaned input non-empty). -/
theorem C4_witness :
    TruncSpec (joinSp (dedupFirst (splitSentences (joinSp (pyWords
        (pyStrip "ab cd ef".data))))))
      (compress_text "ab cd ef".data 5) 5 :=
  (C4_amended "ab cd ef".data 5).2.2.2 (by decide)
